import Mathlib

/-!
Verification of the fallback lexer / token-tree model in `src/stable.rs`.

The source is embedded shallowly: input strings become `List Char`
(`Str`), every scanner becomes a computable Lean function mirroring the
Rust control flow, and fallible scanners return an explicit result type.
Loops that are not structurally recursive take a fuel argument; every
wrapper passes fuel that exceeds the input length, and each loop
consumes at least one character per fuel unit, so the fuel never runs
out on the wrapped calls (running out is recorded by a distinguished
`cut` result so it can never be mistaken for an answer).

The helper module `strnom` (whitespace skipping, `word_break`,
`block_comment`, the `tag!`/`punct!`/`take_until!` combinators) is not
part of the sources under `src/`; those definitions are modelled from
the specification and marked as such in their doc comments.
-/

namespace Stable

/-- Input text, as the list of its characters (Rust `&str` suffix). -/
abbrev Str := List Char

/-- Result of a fallible scanner: `ok rest value` mirrors
`Ok((rest, value))`, `err` mirrors `Err(LexError)`, `panic` mirrors a
Rust panic (used by the byte-slice model), and `cut` marks fuel
exhaustion of the embedding (never an answer of the Rust code). -/
inductive PRes (α : Type) : Type where
  | ok : Str → α → PRes α
  | err : PRes α
  | panic : PRes α
  | cut : PRes α
deriving DecidableEq, Repr

/-- Modelled from the spec: Unicode XID-start (external `unicode_xid`
crate, not part of `src/`). ASCII letters are XID-start; `_` is not
(the source tests `is_xid_start ch || ch == '_'` separately). Beyond
ASCII only the Latin-1 letters are modelled; all inputs used by the
claims are ASCII. -/
def isXidStart (c : Char) : Bool :=
  (('a' ≤ c && c ≤ 'z') || ('A' ≤ c && c ≤ 'Z')) ||
    (0xC0 ≤ c.toNat && c.toNat ≤ 0xFF && c.toNat ≠ 0xD7 && c.toNat ≠ 0xF7)

/-- Modelled from the spec: Unicode XID-continue (external
`unicode_xid` crate). ASCII: letters, digits and `_`. -/
def isXidContinue (c : Char) : Bool :=
  isXidStart c || ('0' ≤ c && c ≤ '9') || c = '_'

/-- Modelled from the spec: a whitespace character (ASCII space and the
control whitespace 0x09–0x0D; the claims use only these). -/
def wsChar (c : Char) : Bool :=
  c = ' ' || (0x09 ≤ c.toNat && c.toNat ≤ 0x0D)

/-- `pat.isPrefixOf s` as a Bool, for readability. -/
def startsWith (pat : String) (s : Str) : Bool :=
  pat.toList.isPrefixOf s

/-- Modelled from the spec: start of a doc line comment (`//!`, or
`///` not followed by a further `/`). -/
def docLineStart (s : Str) : Bool :=
  startsWith "//!" s || (startsWith "///" s && !startsWith "////" s)

/-- Modelled from the spec: start of a doc block comment (`/*!`, or
`/**` not followed by a further `*`). -/
def docBlockStart (s : Str) : Bool :=
  startsWith "/*!" s || (startsWith "/**" s && !startsWith "/***" s)

/-- Modelled from the spec: the body scan of a nested block comment.
`bcGo d s` consumes until the depth-`d` closing `*/`, returning the
rest, or `none` when the comment is unterminated. -/
def bcGo : Nat → Str → Option Str
  | d, '*' :: '/' :: t => if d ≤ 1 then some t else bcGo (d - 1) t
  | d, '/' :: '*' :: t => bcGo (d + 1) t
  | d, _ :: t => bcGo d t
  | _, [] => none

/-- Modelled from the spec: `strnom::block_comment`, consuming a
(nested) block comment `/* ... */`. -/
def blockComment (s : Str) : PRes Unit :=
  if startsWith "/*" s then
    match bcGo 1 (s.drop 2) with
    | some r => .ok r ()
    | none => .err
  else .err

/-- Drop a line comment: everything up to and including the next
newline (to the end of input when there is none). -/
def dropLine (s : Str) : Str :=
  match s.dropWhile (fun c => !(c = '\n')) with
  | _ :: r => r
  | [] => []

/-- Modelled from the spec: one fuelled pass of `strnom`'s whitespace
skipping: runs of whitespace and non-doc comments are consumed, doc
comments and everything else stop the scan. An unterminated block
comment stops the scan at its opening. -/
def skipWsF : Nat → Str → Str
  | 0, s => s
  | n + 1, s =>
    if startsWith "//" s && !docLineStart s then
      skipWsF n (dropLine s)
    else if startsWith "/*" s && !docBlockStart s then
      match blockComment s with
      | .ok r _ => skipWsF n r
      | _ => s
    else
      match s with
      | c :: t => if wsChar c then skipWsF n t else s
      | [] => []

/-- Modelled from the spec: `strnom::skip_whitespace` (total: returns
the input when nothing can be skipped). -/
def skipWs (s : Str) : Str := skipWsF (s.length + 1) s

/-- Modelled from the spec: `strnom::whitespace`, succeeding only when
at least one character of whitespace/comment was consumed. -/
def whitespaceP (s : Str) : PRes Unit :=
  let r := skipWs s
  if r.length < s.length then .ok r () else .err

/-- Modelled from the spec: `strnom::word_break` — succeeds only when
the next character (if any) is not an identifier-continuation
character. Consumes nothing. -/
def wordBreak (s : Str) : PRes Unit :=
  match s with
  | [] => .ok [] ()
  | c :: _ => if isXidContinue c then .err else .ok s ()

/-- Modelled from the spec: the `tag!` combinator — expect a literal
string, without skipping whitespace. -/
def tag (pat : String) (s : Str) : PRes Unit :=
  if startsWith pat s then .ok (s.drop pat.toList.length) () else .err

/-- Modelled from the spec: the `punct!` combinator — skip whitespace
and non-doc comments, then expect a literal string. -/
def punct (pat : String) (s : Str) : PRes Unit :=
  tag pat (skipWs s)

/-- Modelled from the spec: the `take_until!("\n")` combinator —
consume up to (not including) the next newline; fail when the input
has no newline. -/
def takeUntilNl (s : Str) : PRes Unit :=
  if s.any (fun c => c = '\n') then
    .ok (s.dropWhile (fun c => !(c = '\n'))) ()
  else .err

/-- Convenient literal notation for `Str`. -/
def str (s : String) : Str := s.toList

/-- The apostrophe character (written by code, kept out of string
literals here). -/
def qc : Char := '\x27'

/-- Sequencing of scanners (the `>>` of `do_parse!`). -/
def pbind (r : PRes α) (f : Str → α → PRes β) : PRes β :=
  match r with
  | .ok rest a => f rest a
  | .err => .err
  | .panic => .panic
  | .cut => .cut

/-- Alternation of scanners (`alt!`): on `err` try the next
alternative, everything else is final. -/
def palt (r : PRes α) (f : Unit → PRes α) : PRes α :=
  match r with
  | .err => f ()
  | x => x

/-- Map over a scanner result. -/
def pmap (r : PRes α) (f : α → β) : PRes β :=
  match r with
  | .ok rest a => .ok rest (f a)
  | .err => .err
  | .panic => .panic
  | .cut => .cut

/-! ### Escape decoders (`src/stable.rs` lines 683–738) -/

/-- Hexadecimal digit character. -/
def isHexDigit (c : Char) : Bool :=
  ('0' ≤ c && c ≤ '9') || ('a' ≤ c && c ≤ 'f') || ('A' ≤ c && c ≤ 'F')

/-- `backslash_x_char`: after `\x` in a char/string literal the source
requires one digit in `'0'...'7'` and then one hex digit. Returns the
rest on success. -/
def backslashXChar : Str → Option Str
  | a :: b :: rest =>
    if ('0' ≤ a && a ≤ '7') && isHexDigit b then some rest else none
  | _ => none

/-- Tail of `backslash_u` after the first forced hex digit: up to `n`
further hex digits, then a closing brace. -/
def buTail : Nat → Str → Option Str
  | n, c :: rest =>
    if c = '\x7d' then some rest
    else if isHexDigit c && n ≠ 0 then buTail (n - 1) rest
    else none
  | _, [] => none

/-- `backslash_u`: `\u` followed by a brace-delimited group of 1–6 hex
digits. -/
def backslashU : Str → Option Str
  | '\x7b' :: t =>
    (match t with
     | a :: t2 => if isHexDigit a then buTail 5 t2 else none
     | [] => none)
  | _ => none

/-! ### String-like literals (`src/stable.rs` lines 459–612) -/

/-- `cooked_string` body scan (fuelled; each step consumes at least one
character). `Char::is_whitespace` of the line-continuation case is
modelled by `wsChar`. -/
def cookedStringF : Nat → Str → PRes Unit
  | 0, _ => .cut
  | n + 1, s =>
    match s with
    | '"' :: t => .ok ('"' :: t) ()
    | '\r' :: t =>
      (match t with
       | '\n' :: t2 => cookedStringF n t2
       | _ => .err)
    | '\\' :: t =>
      (match t with
       | 'x' :: t2 =>
         (match backslashXChar t2 with
          | some r => cookedStringF n r
          | none => .err)
       | 'u' :: t2 =>
         (match backslashU t2 with
          | some r => cookedStringF n r
          | none => .err)
       | '\n' :: t2 => cookedStringF n (t2.dropWhile wsChar)
       | '\r' :: t2 => cookedStringF n (t2.dropWhile wsChar)
       | c :: t2 =>
         if c = 'n' || c = 'r' || c = 't' || c = '\\' || c = qc || c = '"' || c = '0'
         then cookedStringF n t2 else .err
       | [] => .err)
    | _ :: t => cookedStringF n t
    | [] => .err

/-- `cooked_string` (wrapper fixing the fuel). -/
def cookedString (s : Str) : PRes Unit := cookedStringF (s.length + 1) s

/-- `quoted_string`: `"` then a cooked body then the closing `"`. -/
def quotedString (s : Str) : PRes Unit :=
  pbind (punct "\"" s) fun r _ =>
  pbind (cookedString r) fun r2 _ =>
  tag "\"" r2

/-- Second loop of `raw_string`: scan for a `"` followed by `n` pound
signs; other characters (including a lone `"`) are part of the body. -/
def rawStringScan (n : Nat) : Str → PRes Unit
  | [] => .err
  | '"' :: t =>
    if (List.replicate n '#').isPrefixOf t then .ok (t.drop n) ()
    else rawStringScan n t
  | _ :: t => rawStringScan n t

/-- First loop of `raw_string`: count pound signs up to the opening
quote. -/
def rawOpen : Str → Nat → PRes Unit
  | [], _ => .err
  | '"' :: t, n => rawStringScan n t
  | '#' :: t, n => rawOpen t (n + 1)
  | _, _ => .err

/-- `raw_string` (the part after the `r`/`br` prefix). -/
def rawString (s : Str) : PRes Unit := rawOpen s 0

/-- `string`: a quoted string or `r` followed by a raw string. -/
def string (s : Str) : PRes Unit :=
  palt (quotedString s) fun _ =>
    pbind (punct "r" s) fun r _ => rawString r

/-- `cooked_byte_string` body scan (fuelled). The source walks bytes;
character-level this is equivalent because every multi-byte character
starts with a byte `≥ 0x80`, which hits the reject arm before any
boundary issue, and all accepted bytes are ASCII. -/
def cookedByteStringF : Nat → Str → PRes Unit
  | 0, _ => .cut
  | n + 1, s =>
    match s with
    | '"' :: t => .ok ('"' :: t) ()
    | '\r' :: t =>
      (match t with
       | '\n' :: t2 => cookedByteStringF n t2
       | _ => .err)
    | '\\' :: t =>
      (match t with
       | 'x' :: t2 =>
         (match t2 with
          | a :: b :: r =>
            if isHexDigit a && isHexDigit b then cookedByteStringF n r else .err
          | _ => .err)
       | '\n' :: t2 =>
         (match t2.dropWhile wsChar with
          | [] => .err
          | r => cookedByteStringF n r)
       | '\r' :: t2 =>
         (match t2.dropWhile wsChar with
          | [] => .err
          | r => cookedByteStringF n r)
       | c :: t2 =>
         if c = 'n' || c = 'r' || c = 't' || c = '\\' || c = '0' || c = qc || c = '"'
         then cookedByteStringF n t2 else .err
       | [] => .err)
    | c :: t => if c.toNat < 0x80 then cookedByteStringF n t else .err
    | [] => .err

/-- `cooked_byte_string` (wrapper fixing the fuel). -/
def cookedByteString (s : Str) : PRes Unit := cookedByteStringF (s.length + 1) s

/-- `byte_string`: `b"..."` or `br` followed by a raw string. -/
def byteString (s : Str) : PRes Unit :=
  palt (pbind (punct "b\"" s) fun r _ =>
        pbind (cookedByteString r) fun r2 _ =>
        tag "\"" r2) fun _ =>
    pbind (punct "br" s) fun r _ => rawString r

/-! ### The byte literal and its byte-level slicing
(`src/stable.rs` lines 614–648) -/

/-- UTF-8 encoding of one character (the bytes Rust's `str::bytes`
yields for it). -/
def utf8Char (c : Char) : List Nat :=
  let n := c.toNat
  if n < 0x80 then [n]
  else if n < 0x800 then [0xC0 + n / 64, 0x80 + n % 64]
  else if n < 0x10000 then
    [0xE0 + n / 4096, 0x80 + (n / 64) % 64, 0x80 + n % 64]
  else
    [0xF0 + n / 262144, 0x80 + (n / 4096) % 64, 0x80 + (n / 64) % 64, 0x80 + n % 64]

/-- UTF-8 bytes of a string. -/
def utf8Bytes (s : Str) : List Nat := s.flatMap utf8Char

/-- Rust's `&input[k..]` for a byte index `k`: `none` models the
panic on an index that is not a character boundary (or out of
bounds). -/
def sliceBytes : Str → Nat → Option Str
  | s, 0 => some s
  | [], _ + 1 => none
  | c :: t, k + 1 =>
    if k + 1 < (utf8Char c).length then none
    else sliceBytes t (k + 1 - (utf8Char c).length)

/-- Hexadecimal digit byte (`backslash_x_byte`'s character class). -/
def hexByte (b : Nat) : Bool :=
  (48 ≤ b && b ≤ 57) || (97 ≤ b && b ≤ 102) || (65 ≤ b && b ≤ 70)

/-- After `cooked_byte` accepted a byte, the source calls
`bytes.next()` and slices the input at that byte offset — a panic when
the offset is inside a multi-byte character. -/
def cbFinish (s : Str) (rest : List (Nat × Nat)) : PRes Unit :=
  match rest with
  | (off, _) :: _ =>
    (match sliceBytes s off with
     | some r => .ok r ()
     | none => .panic)
  | [] => .ok [] ()

/-- `cooked_byte`: one byte or one byte escape, walked on the UTF-8
bytes of the input exactly as the source does. -/
def cookedByte (s : Str) : PRes Unit :=
  match (utf8Bytes s).enum with
  | [] => .err
  | (_, b0) :: t0 =>
    if b0 = 92 then
      match t0 with
      | [] => .err
      | (_, b1) :: t1 =>
        if b1 = 120 then
          match t1 with
          | (_, ba) :: (_, bb) :: t2 =>
            if hexByte ba && hexByte bb then cbFinish s t2 else .err
          | _ => .err
        else if b1 = 110 || b1 = 114 || b1 = 116 || b1 = 92 || b1 = 48 ||
                b1 = 39 || b1 = 34 then cbFinish s t1
        else .err
    else cbFinish s t0

/-- `byte`: `b` `'` cooked byte `'`. -/
def byte (s : Str) : PRes Unit :=
  pbind (punct "b" s) fun r _ =>
  pbind (tag "\x27" r) fun r2 _ =>
  pbind (cookedByte r2) fun r3 _ =>
  tag "\x27" r3

/-! ### Char literal (`src/stable.rs` lines 650–681) -/

/-- `cooked_char`: one character or one character escape. -/
def cookedChar (s : Str) : PRes Unit :=
  match s with
  | '\\' :: t =>
    (match t with
     | 'x' :: t2 =>
       (match backslashXChar t2 with
        | some r => .ok r ()
        | none => .err)
     | 'u' :: t2 =>
       (match backslashU t2 with
        | some r => .ok r ()
        | none => .err)
     | c :: t2 =>
       if c = 'n' || c = 'r' || c = 't' || c = '\\' || c = '0' || c = qc || c = '"'
       then .ok t2 () else .err
     | [] => .err)
  | _ :: t => .ok t ()
  | [] => .err

/-- `character`: `'` cooked char `'`. -/
def character (s : Str) : PRes Unit :=
  pbind (punct "\x27" s) fun r _ =>
  pbind (cookedChar r) fun r2 _ =>
  tag "\x27" r2

/-! ### Numeric literals (`src/stable.rs` lines 740–889) -/

/-- Mantissa loop of `float_digits` (digits, underscores, at most one
dot with its lookahead, stopping after an `e`/`E`). Returns the
unconsumed rest together with the `has_dot`/`has_exp` flags, or `none`
for the lookahead failure `1.` followed by `.` or an
identifier-start. -/
def mantissa : Str → Bool → Bool → Option (Str × Bool × Bool)
  | [], hd, he => some ([], hd, he)
  | c :: t, hd, he =>
    if ('0' ≤ c && c ≤ '9') || c = '_' then mantissa t hd he
    else if c = '.' then
      if hd then some (c :: t, hd, he)
      else if (match t with
               | d :: _ => d = '.' || isXidStart d
               | [] => false) then none
      else mantissa t true he
    else if c = 'e' || c = 'E' then some (t, hd, true)
    else some (c :: t, hd, he)

/-- Exponent loop of `float_digits`: signs only break the loop once a
digit has been seen; underscores are always allowed; at least one
digit is required overall (`none` otherwise). -/
def expLoop : Str → Bool → Option Str
  | c :: t, hev =>
    if c = '+' || c = '-' then
      if hev then some (c :: t) else expLoop t hev
    else if '0' ≤ c && c ≤ '9' then expLoop t true
    else if c = '_' then expLoop t hev
    else if hev then some (c :: t) else none
  | [], hev => if hev then some [] else none

/-- `float_digits`. -/
def floatDigits (s : Str) : PRes Unit :=
  match s with
  | c :: t =>
    if '0' ≤ c && c ≤ '9' then
      match mantissa t false false with
      | none => .err
      | some (rest, hd, he) =>
        if !(hd || he || startsWith "f32" rest || startsWith "f64" rest) then .err
        else if he then
          match expLoop rest false with
          | some r => .ok r ()
          | none => .err
        else .ok rest ()
    else .err
  | [] => .err

/-- `float`: digits, an optional `f32`/`f64` suffix, then a word
break. -/
def float (s : Str) : PRes Unit :=
  pbind (floatDigits s) fun rest _ =>
    if startsWith "f32" rest then wordBreak (rest.drop 3)
    else if startsWith "f64" rest then wordBreak (rest.drop 3)
    else wordBreak rest

/-- Digit loop of `digits`: digits of the base (underscore rules
included), failing on a digit `≥ base`, stopping at the first other
character, failing when no digit was consumed. -/
def digitsLoop (base : Nat) : Str → Bool → PRes Unit
  | c :: t, empty =>
    (match (if '0' ≤ c && c ≤ '9' then some (c.toNat - 48)
            else if 'a' ≤ c && c ≤ 'f' then some (10 + c.toNat - 97)
            else if 'A' ≤ c && c ≤ 'F' then some (10 + c.toNat - 65)
            else none) with
     | some d =>
       if base ≤ d then .err else digitsLoop base t false
     | none =>
       if c = '_' then
         if empty && base = 10 then .err else digitsLoop base t empty
       else if empty then .err else .ok (c :: t) ())
  | [], empty => if empty then .err else .ok [] ()

/-- `digits`: optional base prefix then the digit loop. -/
def digits (s : Str) : PRes Unit :=
  if startsWith "0x" s then digitsLoop 16 (s.drop 2) true
  else if startsWith "0o" s then digitsLoop 8 (s.drop 2) true
  else if startsWith "0b" s then digitsLoop 2 (s.drop 2) true
  else digitsLoop 10 s true

/-- The fixed integer-suffix list, in source order. -/
def intSuffixes : List String :=
  ["isize", "i8", "i16", "i32", "i64", "i128",
   "usize", "u8", "u16", "u32", "u64", "u128"]

/-- `int`: digits, the first matching suffix if any, then a word
break. -/
def int (s : Str) : PRes Unit :=
  pbind (digits s) fun rest _ =>
    match intSuffixes.find? (fun suf => startsWith suf rest) with
    | some suf => wordBreak (rest.drop suf.toList.length)
    | none => wordBreak rest

/-! ### Boolean and doc comments (`src/stable.rs` lines 891–895,
927–954) -/

/-- Modelled from the spec: `strnom`'s `keyword!` — the word followed
by a word break (`true`/`false` must be whole words). -/
def keywordP (w : String) (s : Str) : PRes Unit :=
  pbind (punct w s) fun r _ => wordBreak r

/-- `boolean`. -/
def boolean (s : Str) : PRes Unit :=
  palt (keywordP "true" s) fun _ => keywordP "false" s

/-- `option!(whitespace)`: consume whitespace when possible. -/
def optWs (s : Str) : Str :=
  match whitespaceP s with
  | .ok r _ => r
  | _ => s

/-- `doc_comment`: the four doc-comment alternatives. -/
def docComment (s : Str) : PRes Unit :=
  palt (pbind (punct "//!" s) fun r _ => takeUntilNl r) fun _ =>
  palt (let s1 := optWs s
        if startsWith "/*!" s1 then blockComment s1 else .err) fun _ =>
  palt (pbind (punct "///" s) fun r _ =>
        match tag "/" r with
        | .ok _ _ => .err
        | .err => takeUntilNl r
        | x => x) fun _ =>
  (let s1 := optWs s
   if startsWith "/**" s1 && !startsWith "/***" s1 then blockComment s1 else .err)

/-! ### Symbols and operators (`src/stable.rs` lines 386–425,
897–925) -/

/-- The fixed keyword list, transcribed from the source. -/
def KEYWORDS : List Str :=
  ["abstract", "alignof", "as", "become", "box", "break", "const", "continue",
   "crate", "do", "else", "enum", "extern", "false", "final", "fn", "for",
   "if", "impl", "in", "let", "loop", "macro", "match", "mod", "move", "mut",
   "offsetof", "override", "priv", "proc", "pub", "pure", "ref", "return",
   "self", "Self", "sizeof", "static", "struct", "super", "trait", "true",
   "type", "typeof", "unsafe", "unsized", "use", "virtual", "where", "while",
   "yield"].map String.toList

/-- `symbol`: identifier or lifetime, with the keyword rejection for
lifetimes other than `'static`. Returns the matched text (the model of
an interned `Term`). -/
def symbol (input0 : Str) : PRes Str :=
  let input := skipWs input0
  let lifetime := input.head? = some qc
  let k := if lifetime then 1 else 0
  match input.drop k with
  | [] => .err
  | c :: rest =>
    if isXidStart c || c = '_' then
      let e := k + 1 + (rest.takeWhile isXidContinue).length
      if lifetime && !(input.take e = qc :: str "static") &&
          KEYWORDS.contains ((input.drop 1).take (e - 1)) then .err
      else .ok (input.drop e) (input.take e)
    else .err

/-- The operator character set. -/
def opSet : Str := str "~!@#$%^&*-=+|;:,<.>/?"

/-- `op_char`. -/
def opChar (input : Str) : PRes Char :=
  match input with
  | [] => .err
  | c :: t => if opSet.contains c then .ok t c else .err

/-! ### Data model (`src/stable.rs` lines 19–22, 140–147 and the
`TokenNode` variants of the crate root) -/

/-- `Spacing`. -/
inductive Spacing : Type where
  | alone : Spacing
  | joint : Spacing
deriving DecidableEq, Repr

/-- `Delimiter`. -/
inductive Delimiter : Type where
  | parenthesis : Delimiter
  | brace : Delimiter
  | bracket : Delimiter
  | none : Delimiter
deriving DecidableEq, Repr

mutual
/-- `TokenNode` (the `TokenTree`'s span is a unit placeholder and is
dropped; a `Term` is its interned text). -/
inductive TokenNode : Type where
  | group : Delimiter → TokenStream → TokenNode
  | term : Str → TokenNode
  | op : Char → Spacing → TokenNode
  | literal : Str → TokenNode

/-- `TokenStream`: an ordered sequence of token trees. -/
inductive TokenStream : Type where
  | nil : TokenStream
  | cons : TokenNode → TokenStream → TokenStream
end

/-- `op`: an operator character with its spacing, `Joint` iff the very
next character is also an operator character. -/
def op (input0 : Str) : PRes (Char × Spacing) :=
  let input := skipWs input0
  match opChar input with
  | .ok rest ch =>
    (match opChar rest with
     | .ok _ _ => .ok rest (ch, Spacing.joint)
     | _ => .ok rest (ch, Spacing.alone))
  | _ => .err

/-! ### Literal recognizer and token-tree assembler
(`src/stable.rs` lines 343–384, 427–457) -/

/-- `literal_nocapture`: the fixed alternation over literal forms. -/
def literalNocapture (s : Str) : PRes Unit :=
  palt (string s) fun _ =>
  palt (byteString s) fun _ =>
  palt (byte s) fun _ =>
  palt (character s) fun _ =>
  palt (float s) fun _ =>
  palt (int s) fun _ =>
  palt (boolean s) fun _ =>
  docComment s

/-- `literal`: skip whitespace, run `literal_nocapture`, capture the
exact consumed text. -/
def literal (s : Str) : PRes Str :=
  let noWs := skipWs s
  match literalNocapture noWs with
  | .ok a _ => .ok a (noWs.take (noWs.length - a.length))
  | .err => .err
  | .panic => .panic
  | .cut => .cut

mutual
/-- `token_stream` = `many0!(token_tree)`: collect token trees until
one fails; never fails itself. Fuelled; `cut` records exhaustion. -/
def parseStream : Nat → Str → PRes TokenStream
  | 0, _ => .cut
  | n + 1, s =>
    match parseToken n s with
    | .ok rest t =>
      (match parseStream n rest with
       | .ok r ts => .ok r (.cons t ts)
       | .err => .err
       | .panic => .panic
       | .cut => .cut)
    | .err => .ok s .nil
    | .panic => .panic
    | .cut => .cut

/-- `token_kind`/`token_tree`: group, else literal, else symbol, else
operator (order is load-bearing). -/
def parseToken : Nat → Str → PRes TokenNode
  | 0, _ => .cut
  | n + 1, s =>
    let paren : PRes TokenNode :=
      match punct "(" s with
      | .ok r _ =>
        (match parseStream n r with
         | .ok r2 ts =>
           (match punct ")" r2 with
            | .ok r3 _ => .ok r3 (.group .parenthesis ts)
            | .err => .err
            | .panic => .panic
            | .cut => .cut)
         | .err => .err
         | .panic => .panic
         | .cut => .cut)
      | .err => .err
      | .panic => .panic
      | .cut => .cut
    let bracket : PRes TokenNode :=
      match punct "[" s with
      | .ok r _ =>
        (match parseStream n r with
         | .ok r2 ts =>
           (match punct "]" r2 with
            | .ok r3 _ => .ok r3 (.group .bracket ts)
            | .err => .err
            | .panic => .panic
            | .cut => .cut)
         | .err => .err
         | .panic => .panic
         | .cut => .cut)
      | .err => .err
      | .panic => .panic
      | .cut => .cut
    let brace : PRes TokenNode :=
      match punct "\x7b" s with
      | .ok r _ =>
        (match parseStream n r with
         | .ok r2 ts =>
           (match punct "\x7d" r2 with
            | .ok r3 _ => .ok r3 (.group .brace ts)
            | .err => .err
            | .panic => .panic
            | .cut => .cut)
         | .err => .err
         | .panic => .panic
         | .cut => .cut)
      | .err => .err
      | .panic => .panic
      | .cut => .cut
    palt paren fun _ =>
    palt bracket fun _ =>
    palt brace fun _ =>
    palt (pmap (literal s) TokenNode.literal) fun _ =>
    palt (pmap (symbol s) TokenNode.term) fun _ =>
    pmap (op s) fun p => TokenNode.op p.1 p.2
end

/-- Outcome of `TokenStream::from_str`. -/
inductive FromStrRes : Type where
  | ok : TokenStream → FromStrRes
  | lexError : FromStrRes
  | panicked : FromStrRes
  | fuelOut : FromStrRes

/-- Fuel used by `fromStr`: ample for the input (each stream step and
token step consumes input). -/
def fromStrFuel (s : Str) : Nat := 8 * s.length + 8

/-- `impl FromStr for TokenStream`: parse a stream, then require the
rest after a whitespace skip to be empty. -/
def fromStr (s : Str) : FromStrRes :=
  match parseStream (fromStrFuel s) s with
  | .ok rest ts => if (skipWs rest).length ≠ 0 then .lexError else .ok ts
  | .err => .lexError
  | .panic => .panicked
  | .cut => .fuelOut

/-! ### Stream model & renderer (`src/stable.rs` lines 27–35,
54–96) -/

/-- Number of trees in a stream (`inner.len()`). -/
def streamLen : TokenStream → Nat
  | .nil => 0
  | .cons _ t => streamLen t + 1

/-- `TokenStream::is_empty`. -/
def isEmpty (ts : TokenStream) : Bool := streamLen ts == 0

/-- Whether a token sets the renderer's `joint` flag. -/
def setsJoint : TokenNode → Bool
  | .op _ .joint => true
  | _ => false

/-- Delimiter characters for rendering (`Delimiter::None` renders as
empty strings). -/
def delimChars : Delimiter → Str × Str
  | .parenthesis => (['('], [')'])
  | .brace => (['\x7b'], ['\x7d'])
  | .bracket => (['['], [']'])
  | .none => ([], [])

mutual
/-- The `fmt::Display` loop: a space before each tree except the first
and except after a `Joint` operator. -/
def renderGo : Bool → TokenStream → Str
  | _, .nil => []
  | nospace, .cons t rest =>
    (if nospace then [] else [' ']) ++ renderNode t ++ renderGo (setsJoint t) rest

/-- Rendering of one tree: groups as `open SP body SP close` (or
`open SP close` when empty), terms and literals verbatim, a newline
after a literal starting with `/`. -/
def renderNode : TokenNode → Str
  | .group d ts =>
    (match ts with
     | .nil => (delimChars d).1 ++ ' ' :: (delimChars d).2
     | _ => (delimChars d).1 ++ ' ' :: (renderGo true ts ++ ' ' :: (delimChars d).2))
  | .term s => s
  | .op c _ => [c]
  | .literal l => l ++ (if l.head? = some '/' then ['\n'] else [])
end

/-- `to_text` / `Display for TokenStream`. -/
def renderStream (ts : TokenStream) : Str := renderGo true ts

mutual
/-- Structural equivalence of trees in the round-trip sense: same tree
shape, same literal text, same symbol text, same operator characters;
spacing is ignored. -/
def nodeEquiv : TokenNode → TokenNode → Bool
  | .group d ts, .group d' ts' => d == d' && structEquiv ts ts'
  | .term s, .term s' => s == s'
  | .op c _, .op c' _ => c == c'
  | .literal l, .literal l' => l == l'
  | _, _ => false

/-- Structural equivalence of streams (pointwise, same length). -/
def structEquiv : TokenStream → TokenStream → Bool
  | .nil, .nil => true
  | .cons a as, .cons b bs => nodeEquiv a b && structEquiv as bs
  | _, _ => false
end

/-! ### A lexically safe class of streams, for the round-trip
property. The round-trip claim fails for arbitrary streams (see the
counterexample for C1); the class below names sufficient conditions
under which rendering and re-lexing is the identity. -/

/-- A well-formed identifier body: XID-start (or `_`) head,
XID-continue tail. -/
def bodyOk : Str → Bool
  | [] => false
  | c :: kt => (isXidStart c || c = '_') && kt.all isXidContinue

/-- A `Term` text that lexes back as one symbol: an identifier that is
not `true`/`false` (those lex as boolean literals), or a lifetime
whose body is not a keyword other than `static`. -/
def validTerm : Str → Bool
  | [] => false
  | c :: body =>
    if c = qc then
      bodyOk body && (body = str "static" || !KEYWORDS.contains body)
    else
      bodyOk (c :: body) &&
        !(c :: body = str "true") && !(c :: body = str "false")

/-- A `Literal` text in the safe class: a nonempty run of decimal
digits. -/
def validLit (l : Str) : Bool :=
  !(l = []) && l.all (fun c => '0' ≤ c && c ≤ '9')

mutual
/-- Nodes of the lexically safe class: groups with real delimiters,
safe terms, `Alone`-spaced operator characters, digit literals. -/
def validNode : TokenNode → Bool
  | .group d ts => !(d = Delimiter.none) && validStream ts
  | .term t => validTerm t
  | .op c sp => opSet.contains c && sp == Spacing.alone
  | .literal l => validLit l

/-- Streams of the lexically safe class. -/
def validStream : TokenStream → Bool
  | .nil => true
  | .cons t ts => validNode t && validStream ts
end

mutual
/-- Structural size of a node (for strong induction). -/
def nodeSize : TokenNode → Nat
  | .group _ ts => streamSize ts + 1
  | _ => 1

/-- Structural size of a stream. -/
def streamSize : TokenStream → Nat
  | .nil => 1
  | .cons t ts => nodeSize t + streamSize ts + 1
end

mutual
/-- Fuel sufficient to parse the rendering of a node. -/
def tnFuel : TokenNode → Nat
  | .group _ ts => tsFuel ts + 4
  | _ => 4

/-- Fuel sufficient to parse the rendering of a stream. -/
def tsFuel : TokenStream → Nat
  | .nil => 4
  | .cons t ts => tnFuel t + tsFuel ts + 4
end

/-- What may follow a rendered token: nothing, or a space (the
renderer's separator). -/
def restOK (rest : Str) : Prop := rest = [] ∨ rest.head? = some ' '

/-- Input on which the token parser always fails (so `many0`
stops there): closers and end of input, possibly behind spaces. -/
def stopperP (ext : Str) : Prop := ∀ m, parseToken (m + 1) ext = .err

/-- A concrete stream of the lexically safe class, rendering to
`( a ) + 1`. -/
def sampleStream : TokenStream :=
  .cons (.group .parenthesis (.cons (.term (str "a")) .nil))
    (.cons (.op '+' .alone) (.cons (.literal (str "1")) .nil))

/-! ## Helper lemmas -/

/-- `many0` stops at the first failing token, returning the unconsumed
input and the empty stream. -/
theorem parseStream_of_token_err {n : Nat} {s : Str} (h : parseToken n s = .err) :
    parseStream (n + 1) s = .ok s .nil := by
  simp only [parseStream, h]

/-- Heads that are not `/` and not whitespace stop the whitespace
skipper immediately. -/
theorem skipWs_cons_of {c : Char} (t : Str) (hc : c ≠ '/') (hw : wsChar c = false) :
    skipWs (c :: t) = c :: t := by
  have h2 : startsWith "//" (c :: t) = false := by
    simp only [startsWith, List.isPrefixOf, Bool.and_eq_false_iff]
    left
    simp [Ne.symm hc]
  have h3 : startsWith "/*" (c :: t) = false := by
    simp only [startsWith, List.isPrefixOf, Bool.and_eq_false_iff]
    left
    simp [Ne.symm hc]
  show skipWsF ((c :: t).length + 1) (c :: t) = c :: t
  rw [show (c :: t).length + 1 = t.length + 1 + 1 by simp]
  simp only [skipWsF, h2, h3, hw]
  simp

/-- `takeWhile` over an append whose left part satisfies the predicate
and whose right part starts with a failing character. -/
theorem takeWhile_append_of (p : Char → Bool) (xs ys : Str)
    (h1 : ∀ x ∈ xs, p x = true)
    (h2 : ∀ c, ys.head? = some c → p c = false) :
    (xs ++ ys).takeWhile p = xs := by
  induction xs with
  | nil =>
    cases ys with
    | nil => rfl
    | cons c t => simp [List.takeWhile_cons, h2 c rfl]
  | cons x xt ih =>
    simp only [List.cons_append, List.takeWhile_cons, h1 x (List.mem_cons_self x xt),
      if_true]
    rw [ih (fun a ha => h1 a (List.mem_cons_of_mem _ ha))]

/-- Evaluation of `symbol` on a lifetime whose body is followed by a
word break: accepted with the whole `'body` as its text unless the
body is a keyword other than `static`. -/
theorem symbol_lifetime_eval (c : Char) (kt rest : Str)
    (hstart : (isXidStart c || c = '_') = true)
    (hcont : ∀ x ∈ kt, isXidContinue x = true)
    (hrest : ∀ x, rest.head? = some x → isXidContinue x = false) :
    symbol (qc :: c :: (kt ++ rest)) =
      if (c :: kt) ∈ KEYWORDS ∧ c :: kt ≠ str "static" then .err
      else .ok rest (qc :: c :: kt) := by
  have hskip : skipWs (qc :: c :: (kt ++ rest)) = qc :: c :: (kt ++ rest) :=
    skipWs_cons_of _ (by decide) (by decide)
  have htw : (kt ++ rest).takeWhile isXidContinue = kt :=
    takeWhile_append_of _ _ _ hcont hrest
  unfold symbol
  rw [hskip]
  simp only [List.head?, List.drop_succ_cons, List.drop_zero, reduceIte, htw]
  rw [if_pos hstart]
  rw [show 1 + 1 + List.length kt = kt.length + 1 + 1 by omega]
  simp only [List.take_succ_cons, List.drop_succ_cons, Nat.add_sub_cancel,
    List.take_left, List.drop_left, List.cons.injEq, decide_True, Bool.true_and,
    List.contains, List.elem_eq_mem, true_and]
  by_cases hmem : c :: kt ∈ KEYWORDS
  · by_cases hstat : c :: kt = str "static"
    · simp [hmem, hstat]
    · simp [hmem, hstat]
  · simp [hmem]

/-! ## Claim theorems -/

/-- Claim C2: `TokenStream::from_str` returns `Ok` exactly when the
whole input is consumed as a stream of token trees and the remainder
after a trailing whitespace/comment skip is empty; leftover content
and unmatched (`"(a"`) or mismatched (`"(a]"`, `"]"`) delimiters make
the whole parse return a `LexError` with no partial stream. -/
theorem c2_total_consumption :
    (∀ s ts, fromStr s = .ok ts ↔
      ∃ rest, parseStream (fromStrFuel s) s = .ok rest ts ∧ skipWs rest = []) ∧
    fromStr (str "(a") = .lexError ∧
    fromStr (str "(a]") = .lexError ∧
    fromStr (str "]") = .lexError := by
  refine ⟨?_, rfl, rfl, rfl⟩
  intro s ts
  constructor
  · intro h
    unfold fromStr at h
    split at h
    next rest ts' hp =>
      split at h
      next hw => exact absurd h (by simp)
      next hw =>
        injection h with h'
        subst h'
        exact ⟨rest, hp, List.eq_nil_of_length_eq_zero (by omega)⟩
    next hp => exact absurd h (by simp)
    next hp => exact absurd h (by simp)
    next hp => exact absurd h (by simp)
  · rintro ⟨rest, hp, hw⟩
    unfold fromStr
    rw [hp]
    simp [hw]

/-- Witness for C2: the empty input parses to the empty stream. -/
theorem c2_total_consumption_witness : fromStr [] = .ok .nil :=
  (c2_total_consumption.1 [] .nil).mpr ⟨[], rfl, rfl⟩

/-- Claim C3 (code bug): `cooked_byte` on the body of `b'é'` slices
the input at byte offset 1, inside the two-byte character `é` — a
panic, not a recoverable `LexError`, and it propagates through the
whole parse. -/
theorem c3_cooked_byte_panics :
    cookedByte ['é', qc] = .panic ∧
    fromStr ('b' :: qc :: 'é' :: qc :: []) = .panicked := ⟨rfl, rfl⟩

/-- Claim C4: a lifetime whose body is a keyword is rejected by
`symbol` unless the body is exactly `static`; `'static` lexes as a
`Term` with text `'static`, `'if` fails, and a plain keyword
identifier such as `if` is accepted. -/
theorem c4_lifetime_keyword :
    (∀ kw ∈ KEYWORDS, kw ≠ str "static" → ∀ rest : Str,
        (∀ x, rest.head? = some x → isXidContinue x = false) →
        symbol (qc :: (kw ++ rest)) = .err) ∧
    symbol (qc :: str "static") = .ok [] (qc :: str "static") ∧
    symbol (qc :: str "if") = .err ∧
    symbol (str "if") = .ok [] (str "if") := by
  refine ⟨?_, rfl, rfl, rfl⟩
  intro kw hkw hst rest hrest
  have hshape : KEYWORDS.all (fun k =>
      match k with
      | [] => false
      | c :: kt => (isXidStart c || c = '_') && kt.all isXidContinue) = true := by decide
  rw [List.all_eq_true] at hshape
  have hk := hshape kw hkw
  cases kw with
  | nil => exact absurd hk (by simp)
  | cons c kt =>
    simp only [Bool.and_eq_true] at hk
    rw [List.cons_append,
      symbol_lifetime_eval c kt rest hk.1
        (fun x hx => by
          have := hk.2
          rw [List.all_eq_true] at this
          exact this x hx)
        hrest]
    rw [if_pos ⟨hkw, hst⟩]

/-- Witness for C4: the keyword lifetime `'while` is rejected. -/
theorem c4_lifetime_keyword_witness : symbol (qc :: (str "while" ++ [])) = .err :=
  c4_lifetime_keyword.1 (str "while") (by decide) (by decide) []
    (fun x hx => nomatch hx)

/-- Claim C5: numeric literals end at a word break — `"1e"` fails the
whole parse, `"1u8"` is one integer literal token with text `1u8`,
`"1u8x"` fails the whole parse. -/
theorem c5_numeric_word_break :
    fromStr (str "1e") = .lexError ∧
    fromStr (str "1u8") = .ok (.cons (.literal (str "1u8")) .nil) ∧
    fromStr (str "1u8x") = .lexError := ⟨rfl, rfl, rfl⟩

/-- Claim C6, counterexample: `'8'` and `'0'` are both hexadecimal
digits, yet `\x80` is rejected by `backslash_x_char`, so the char and
string literals containing it fail the parse — the first digit must be
in `0`–`7`. -/
theorem c6_backslash_x_counterexample :
    isHexDigit '8' = true ∧ isHexDigit '0' = true ∧
    backslashXChar (str "80") = none ∧
    fromStr (qc :: '\\' :: 'x' :: '8' :: '0' :: qc :: []) = .lexError ∧
    fromStr ('"' :: '\\' :: 'x' :: '8' :: '0' :: '"' :: []) = .lexError :=
  ⟨rfl, rfl, rfl, rfl, rfl⟩

/-- Claim C6, amended: in character and string literals a `\x` escape
succeeds exactly when followed by a first digit in `0`–`7` and then
one hexadecimal digit; shorter forms fail, and the well-formed
`'\x41'` parses. -/
theorem c6_backslash_x :
    (∀ (a b : Char) (r : Str), backslashXChar (a :: b :: r) = some r ↔
      (('0' ≤ a ∧ a ≤ '7') ∧ isHexDigit b = true)) ∧
    backslashXChar [] = none ∧ (∀ a, backslashXChar [a] = none) ∧
    fromStr (qc :: '\\' :: 'x' :: '4' :: '1' :: qc :: []) =
      .ok (.cons (.literal (qc :: '\\' :: 'x' :: '4' :: '1' :: qc :: [])) .nil) := by
  refine ⟨?_, rfl, fun a => rfl, rfl⟩
  intro a b r
  simp only [backslashXChar]
  split
  next hcond =>
    simp only [Bool.and_eq_true, decide_eq_true_eq] at hcond
    simp [hcond]
  next hcond =>
    simp only [Bool.and_eq_true, decide_eq_true_eq, not_and] at hcond
    constructor
    · intro hs; exact absurd hs (by simp)
    · intro hp
      exact absurd hp (by
        intro h
        exact hcond ⟨h.1.1, h.1.2⟩ h.2)

/-- Witness for C6: `\x41` is accepted by the char/string escape
decoder. -/
theorem c6_backslash_x_witness : backslashXChar ('4' :: '1' :: []) = some [] :=
  (c6_backslash_x.1 '4' '1' []).mpr (by decide)

/-- Claim C7, counterexample: `"1e++3"` — two signs in the exponent —
parses as a single float literal, so at most one sign is not
enforced. -/
theorem c7_exponent_counterexample :
    fromStr (str "1e++3") = .ok (.cons (.literal (str "1e++3")) .nil) := rfl

/-- Claim C7, amended: the exponent requires at least one digit (an
exponent marker followed by signs/underscores only is rejected), any
number of signs may appear before the first digit, and a sign after a
digit ends the exponent. -/
theorem c7_exponent :
    (∀ t : Str, (∀ c ∈ t, ('0' ≤ c && c ≤ '9') = false) → expLoop t false = none) ∧
    floatDigits (str "1e") = .err ∧
    floatDigits (str "1e+_") = .err ∧
    floatDigits (str "1e3+4") = .ok (str "+4") () ∧
    fromStr (str "1e+3") = .ok (.cons (.literal (str "1e+3")) .nil) := by
  refine ⟨?_, rfl, rfl, rfl, rfl⟩
  intro t h
  induction t with
  | nil => rfl
  | cons c t ih =>
    have hc := h c (List.mem_cons_self c t)
    have ht := fun x hx => h x (List.mem_cons_of_mem _ hx)
    simp only [expLoop, hc, Bool.false_eq_true, if_false]
    split
    · exact ih ht
    · split
      · exact ih ht
      · rfl

/-- Witness for C7: an exponent consisting of a sign and an underscore
but no digit is rejected. -/
theorem c7_exponent_witness : expLoop (str "+_") false = none :=
  c7_exponent.1 (str "+_") (by decide)

/-- Claim C8, counterexample: the keyword list does not have 53
entries. -/
theorem c8_keyword_count_counterexample : KEYWORDS.length ≠ 53 := by decide

/-- Claim C8, amended: the fixed keyword list contains exactly 52
distinct reserved words. -/
theorem c8_keyword_count : KEYWORDS.length = 52 ∧ KEYWORDS.Nodup :=
  ⟨by decide, by decide⟩

/-- Claim C10: an input that the whitespace/non-doc-comment skipper
consumes entirely parses to the empty token stream, which `is_empty`
reports as empty and which renders to the empty string. -/
theorem c10_ws_only_empty_stream (s : Str) (h : skipWs s = []) :
    fromStr s = .ok .nil ∧ isEmpty .nil = true ∧ renderStream .nil = [] := by
  refine ⟨?_, rfl, rfl⟩
  have htok : ∀ n, n ≠ 0 → parseToken n s = .err := by
    intro n hn
    match n, hn with
    | m + 1, _ =>
      have hpa : punct "(" s = .err := by unfold punct; rw [h]; rfl
      have hbk : punct "[" s = .err := by unfold punct; rw [h]; rfl
      have hbc : punct "\x7b" s = .err := by unfold punct; rw [h]; rfl
      have hlit : literal s = .err := by unfold literal; rw [h]; rfl
      have hsym : symbol s = .err := by unfold symbol; rw [h]; rfl
      have hop : op s = .err := by unfold op; rw [h]; rfl
      simp [parseToken, hpa, hbk, hbc, hlit, hsym, hop, palt, pmap]
  unfold fromStr
  rw [show fromStrFuel s = (8 * s.length + 7) + 1 from rfl]
  rw [parseStream_of_token_err (htok (8 * s.length + 7) (by omega))]
  simp [h]

/-- Witness for C10: a whitespace-and-line-comment input parses to the
empty stream. -/
theorem c10_ws_only_empty_stream_witness :
    skipWs (str " // hi") = [] ∧ fromStr (str " // hi") = .ok .nil :=
  ⟨rfl, (c10_ws_only_empty_stream (str " // hi") rfl).1⟩

/-- Claim C1, counterexample: the stream holding one
`Group(Delimiter::None, empty)` renders to a single space, which
re-lexes to the empty stream — not structurally equivalent (the group
node is lost). -/
theorem c1_round_trip_counterexample :
    renderStream (.cons (.group .none .nil) .nil) = [' '] ∧
    fromStr (renderStream (.cons (.group .none .nil) .nil)) = .ok .nil ∧
    structEquiv (.cons (.group .none .nil) .nil) .nil = false :=
  ⟨rfl, rfl, rfl⟩

end Stable


namespace Stable

/-- The token parser fails on empty input. -/
theorem parseToken_nil (n : Nat) : parseToken (n + 1) [] = .err := rfl

/-- A leading space does not change the whitespace skip. -/
theorem skipWs_space (s : Str) : skipWs (' ' :: s) = skipWs s := by
  have hA : startsWith "//" (' ' :: s) = false := by
    simp [startsWith, List.isPrefixOf]
  have hB : startsWith "/*" (' ' :: s) = false := by
    simp [startsWith, List.isPrefixOf]
  rw [show skipWs (' ' :: s) = skipWsF (s.length + 1 + 1) (' ' :: s) from rfl]
  conv_lhs => rw [skipWsF]
  rw [hA, hB]
  simp only [Bool.false_and, Bool.false_eq_true, if_false]
  rw [if_pos (by decide : wsChar ' ' = true)]
  rfl

/-- The token parser ignores a leading space. -/
theorem parseToken_cons_space (n : Nat) (s : Str) :
    parseToken n (' ' :: s) = parseToken n s := by
  cases n with
  | zero => rfl
  | succ m =>
    have h1 : punct "(" (' ' :: s) = punct "(" s := by unfold punct; rw [skipWs_space]
    have h2 : punct "[" (' ' :: s) = punct "[" s := by unfold punct; rw [skipWs_space]
    have h3 : punct "\x7b" (' ' :: s) = punct "\x7b" s := by unfold punct; rw [skipWs_space]
    have h4 : literal (' ' :: s) = literal s := by unfold literal; rw [skipWs_space]
    have h5 : symbol (' ' :: s) = symbol s := by unfold symbol; rw [skipWs_space]
    have h6 : op (' ' :: s) = op s := by unfold op; rw [skipWs_space]
    simp only [parseToken, h1, h2, h3, h4, h5, h6]

/-- A leading space before a stream whose first token parses is
transparent to the stream parser. -/
theorem parseStream_cons_space (m : Nat) (s : Str) (hne : parseToken m s ≠ .err) :
    parseStream (m + 1) (' ' :: s) = parseStream (m + 1) s := by
  simp only [parseStream, parseToken_cons_space]
  cases h : parseToken m s with
  | ok r t => rfl
  | err => exact absurd h hne
  | panic => rfl
  | cut => rfl

/-- A stream parse producing a nonempty stream means the first token
parse did not fail. -/
theorem parseStream_ok_cons_token_ne {m : Nat} {s e : Str} {a : TokenNode}
    {b : TokenStream} (h : parseStream (m + 1) s = .ok e (.cons a b)) :
    parseToken m s ≠ .err := by
  intro hk
  simp only [parseStream, hk] at h
  injection h with h1 h2
  exact TokenStream.noConfusion h2

/-- `many0` on a stopper input returns the empty stream at once. -/
theorem parseStream_of_stopper {ext : Str} (h : stopperP ext) (m : Nat)
    (hm : 2 ≤ m) : parseStream m ext = .ok ext .nil := by
  match m, hm with
  | (m' + 1) + 1, _ => exact parseStream_of_token_err (h m')

/-- Stoppers: end of input. -/
theorem stopper_nil : stopperP [] := fun m => parseToken_nil m

/-- Stoppers are closed under a leading space. -/
theorem stopper_space {ext : Str} (h : stopperP ext) : stopperP (' ' :: ext) :=
  fun m => (parseToken_cons_space (m + 1) ext).trans (h m)

end Stable

namespace Stable

/-- The token parser fails on an input whose head character cannot
start any token (used for closing delimiters and end-of-group
positions). -/
theorem parseToken_err_head (c : Char) (r : Str) (m : Nat)
    (hslash : c ≠ '/') (hws : wsChar c = false)
    (hpa : c ≠ '(') (hbk : c ≠ '[') (hbc : c ≠ '\x7b')
    (hq : c ≠ '"') (hr : c ≠ 'r') (hb : c ≠ 'b') (hqc : c ≠ '\x27')
    (hd1 : ('0' ≤ c && c ≤ '9') = false) (hd2 : ('a' ≤ c && c ≤ 'f') = false)
    (hd3 : ('A' ≤ c && c ≤ 'F') = false) (hu : c ≠ '_') (h0 : c ≠ '0')
    (ht : c ≠ 't') (hf : c ≠ 'f') (hxs : isXidStart c = false)
    (hopc : opSet.contains c = false) :
    parseToken (m + 1) (c :: r) = .err := by
  have hskip : skipWs (c :: r) = c :: r := skipWs_cons_of r hslash hws
  have hlit : literalNocapture (c :: r) = .err := by
    simp [literalNocapture, string, quotedString, byteString, byte, character,
      float, floatDigits, int, digits, digitsLoop, boolean, keywordP, docComment,
      optWs, whitespaceP, punct, tag, startsWith, List.isPrefixOf, hskip, palt,
      pbind, takeUntilNl, hd1, hd2, hd3, qc,
      Ne.symm hq, Ne.symm hr, Ne.symm hb, Ne.symm hqc, Ne.symm hu, Ne.symm h0,
      Ne.symm ht, Ne.symm hf, Ne.symm hslash]
  have hlitp : literal (c :: r) = .err := by
    simp only [literal, hskip, hlit]
  have hsym : symbol (c :: r) = .err := by
    unfold symbol; rw [hskip]
    simp [List.head?, qc, hxs, hqc, Ne.symm hu, hu]
  have hmemop : c ∉ opSet := by
    simpa [List.contains, List.elem_eq_mem] using hopc
  have hop : op (c :: r) = .err := by
    unfold op; rw [hskip]
    simp [opChar, hmemop]
  have hpap : punct "(" (c :: r) = .err := by
    unfold punct; rw [hskip]; simp [tag, startsWith, List.isPrefixOf, Ne.symm hpa]
  have hbkp : punct "[" (c :: r) = .err := by
    unfold punct; rw [hskip]; simp [tag, startsWith, List.isPrefixOf, Ne.symm hbk]
  have hbcp : punct "\x7b" (c :: r) = .err := by
    unfold punct; rw [hskip]; simp [tag, startsWith, List.isPrefixOf, Ne.symm hbc]
  simp [parseToken, hpap, hbkp, hbcp, hlitp, hsym, hop, palt, pmap]

/-- Stoppers: closing delimiters. -/
theorem stopper_closer {c : Char} (hc : c = ')' ∨ c = ']' ∨ c = '\x7d')
    (r : Str) : stopperP (c :: r) := by
  intro m
  rcases hc with rfl | rfl | rfl <;>
    exact parseToken_err_head _ r m (by decide) (by decide) (by decide) (by decide)
      (by decide) (by decide) (by decide) (by decide) (by decide) (by decide)
      (by decide) (by decide) (by decide) (by decide) (by decide) (by decide)
      (by decide) (by decide)

end Stable

namespace Stable

/-- Character order transfers to code points. -/
theorem char_le_toNat {a b : Char} (h : a ≤ b) : a.toNat ≤ b.toNat :=
  Char.le_def.mp h

/-- Code-point case analysis for identifier-start characters. -/
theorem xidStart_cases (c : Char) (h : (isXidStart c || c = '_') = true) :
    (97 ≤ c.toNat ∧ c.toNat ≤ 122) ∨ (65 ≤ c.toNat ∧ c.toNat ≤ 90) ∨
    (192 ≤ c.toNat ∧ c.toNat ≤ 255) ∨ c = '_' := by
  unfold isXidStart at h
  simp only [Bool.or_eq_true, Bool.and_eq_true, decide_eq_true_eq, bne_iff_ne,
    ne_eq] at h
  rcases h with ((⟨h1, h2⟩ | ⟨h1, h2⟩) | h3) | h4
  · exact Or.inl ⟨char_le_toNat h1, char_le_toNat h2⟩
  · exact Or.inr (Or.inl ⟨char_le_toNat h1, char_le_toNat h2⟩)
  · exact Or.inr (Or.inr (Or.inl ⟨h3.1.1.1, h3.1.1.2⟩))
  · exact Or.inr (Or.inr (Or.inr h4))

/-- Code-point case analysis for identifier-continue characters. -/
theorem xidContinue_cases (c : Char) (h : isXidContinue c = true) :
    (97 ≤ c.toNat ∧ c.toNat ≤ 122) ∨ (65 ≤ c.toNat ∧ c.toNat ≤ 90) ∨
    (192 ≤ c.toNat ∧ c.toNat ≤ 255) ∨ (48 ≤ c.toNat ∧ c.toNat ≤ 57) ∨
    c = '_' := by
  unfold isXidContinue at h
  simp only [Bool.or_eq_true, Bool.and_eq_true, decide_eq_true_eq] at h
  rcases h with (hs | ⟨h1, h2⟩) | h4
  · rcases xidStart_cases c (by simp [hs]) with h | h | h | h
    · exact Or.inl h
    · exact Or.inr (Or.inl h)
    · exact Or.inr (Or.inr (Or.inl h))
    · exact Or.inr (Or.inr (Or.inr (Or.inr h)))
  · exact Or.inr (Or.inr (Or.inr (Or.inl ⟨char_le_toNat h1, char_le_toNat h2⟩)))
  · exact Or.inr (Or.inr (Or.inr (Or.inr h4)))

end Stable

namespace Stable

/-- The operator character set, as an explicit list. -/
theorem opSet_chars :
    opSet = ['~', '!', '@', '#', '$', '%', '^', '&', '*', '-', '=', '+', '|',
             ';', ':', ',', '<', '.', '>', '/', '?'] := rfl

/-- Everything an identifier-start head rules out among the lexer's
special characters. -/
theorem identHead_facts (c : Char) (h : (isXidStart c || c = '_') = true) :
    c ≠ '/' ∧ wsChar c = false ∧ c ≠ '(' ∧ c ≠ '[' ∧ c ≠ '\x7b' ∧ c ≠ '"' ∧
    c ≠ '\x27' ∧ ('0' ≤ c && c ≤ '9') = false ∧ c ≠ '0' ∧
    opSet.contains c = false := by
  rcases xidStart_cases c h with hR | hR | hR | rfl <;>
    first
      | decide
      | (obtain ⟨h1, h2⟩ := hR
         have hmem : c ∉ opSet := by
           intro hmem
           rw [opSet_chars] at hmem
           simp only [List.mem_cons, List.not_mem_nil, or_false] at hmem
           rcases hmem with rfl | rfl | rfl | rfl | rfl | rfl | rfl | rfl | rfl |
             rfl | rfl | rfl | rfl | rfl | rfl | rfl | rfl | rfl | rfl | rfl |
             rfl <;>
             exact absurd (And.intro h1 h2) (by decide)
         refine ⟨?_, ?_, ?_, ?_, ?_, ?_, ?_, ?_, ?_, ?_⟩ <;>
           first
             | (rintro rfl; exact absurd (And.intro h1 h2) (by decide))
             | (simp only [wsChar, Bool.or_eq_false_iff, Bool.and_eq_false_iff,
                  decide_eq_false_iff_not]
                constructor
                · rintro rfl; exact absurd (And.intro h1 h2) (by decide)
                · right; omega)
             | (simp only [Bool.and_eq_false_iff, decide_eq_false_iff_not]
                right
                intro hle
                have h3 := char_le_toNat hle
                have h9 : ('9' : Char).toNat = 57 := rfl
                omega)
             | (simp [List.contains, List.elem_eq_mem, hmem]))

end Stable

namespace Stable

/-- Exclusions guaranteed by an identifier-continue character. -/
theorem identCont_facts (d : Char) (h : isXidContinue d = true) :
    d ≠ '"' ∧ d ≠ '#' ∧ d ≠ '\x27' ∧ d ≠ ' ' ∧ d ≠ '\\' := by
  rcases xidContinue_cases d h with hR | hR | hR | hR | rfl <;>
    first
      | decide
      | (obtain ⟨h1, h2⟩ := hR
         refine ⟨?_, ?_, ?_, ?_, ?_⟩ <;>
           (rintro rfl; exact absurd (And.intro h1 h2) (by decide)))

/-- Shape of a `restOK` suffix. -/
theorem restOK_elim {rest : Str} (h : restOK rest) :
    rest = [] ∨ ∃ r', rest = ' ' :: r' := by
  rcases h with rfl | hh
  · exact Or.inl rfl
  · cases rest with
    | nil => exact absurd hh (by simp)
    | cons a t =>
      injection hh with h'
      exact Or.inr ⟨t, by rw [h']⟩

/-- `raw_string` fails when the input after the `r`/`br` prefix does
not open with pounds or a quote. -/
theorem rawString_err {X : Str}
    (h : X = [] ∨ ∃ d X', X = d :: X' ∧ d ≠ '"' ∧ d ≠ '#') :
    rawString X = .err := by
  rcases h with rfl | ⟨d, X', rfl, h1, h2⟩
  · rfl
  · show rawOpen (d :: X') 0 = .err
    rw [rawOpen.eq_def]
    split
    next heq => exact absurd heq (by simp)
    next t n heq => injection heq with ha hb; exact absurd ha h1
    next t n heq => injection heq with ha hb; exact absurd ha h2
    next => rfl

/-- The raw-string tail of an identifier fails: after the leading
`r`/`br` the remaining identifier characters cannot open a raw
string. -/
theorem rawString_err_ident {kt rest : Str}
    (hkt : kt.all isXidContinue = true) (hrest : restOK rest) :
    rawString (kt ++ rest) = .err := by
  apply rawString_err
  cases kt with
  | nil =>
    rcases restOK_elim hrest with rfl | ⟨r', rfl⟩
    · exact Or.inl rfl
    · exact Or.inr ⟨' ', r', rfl, by decide, by decide⟩
  | cons d kt' =>
    have hd : isXidContinue d = true := by
      rw [List.all_cons, Bool.and_eq_true] at hkt
      exact hkt.1
    obtain ⟨f1, f2, _, _, _⟩ := identCont_facts d hd
    exact Or.inr ⟨d, kt' ++ rest, rfl, f1, f2⟩

end Stable

namespace Stable

/-- A `keyword!`-style scanner fails on an identifier that is not that
word: either the tag mismatches, or the word break fails on the next
identifier character. -/
theorem keywordP_err (w : String) (c : Char) (kt rest : Str)
    (hskip : skipWs (c :: (kt ++ rest)) = c :: (kt ++ rest))
    (hw : ∀ x ∈ w.toList, isXidContinue x = true)
    (hne : ¬(c :: kt = w.toList))
    (hall : ∀ x ∈ c :: kt, isXidContinue x = true)
    (hrest : restOK rest) :
    keywordP w (c :: (kt ++ rest)) = .err := by
  unfold keywordP punct
  rw [hskip]
  by_cases hpre : startsWith w (c :: (kt ++ rest)) = true
  · have hp : w.toList <+: (c :: (kt ++ rest)) :=
      List.isPrefixOf_iff_prefix.mp hpre
    obtain ⟨z, hz⟩ := hp
    have hz' : w.toList ++ z = (c :: kt) ++ rest := by
      rw [hz]; rfl
    have hdrop : (c :: (kt ++ rest)).drop w.toList.length = z := by
      rw [← hz, List.drop_left]
    simp only [tag, hpre, if_true, pbind, startsWith] at *
    rw [show ((if w.toList.isPrefixOf (c :: (kt ++ rest)) = true
        then PRes.ok ((c :: (kt ++ rest)).drop w.toList.length) ()
        else PRes.err) : PRes Unit) =
        PRes.ok ((c :: (kt ++ rest)).drop w.toList.length) () from by
      rw [if_pos hpre]]
    rw [hdrop]
    rcases List.append_eq_append_iff.mp hz' with ⟨a', ha1, ha2⟩ | ⟨c', hc1, hc2⟩
    · cases a' with
      | nil => exact absurd (by simpa using ha1) hne
      | cons d a'' =>
        have hd : isXidContinue d = true := by
          apply hall
          rw [ha1]
          exact List.mem_append_right _ (List.mem_cons_self d a'')
        subst ha2
        simp [wordBreak, hd, pbind]
    · cases c' with
      | nil =>
        rw [List.append_nil] at hc1
        exact absurd hc1.symm hne
      | cons d c'' =>
        exfalso
        have hd : isXidContinue d = true := by
          apply hw
          rw [hc1]
          exact List.mem_append_right _ (List.mem_cons_self d c'')
        rcases restOK_elim hrest with hr | ⟨r', hr⟩ <;> rw [hr] at hc2
        · exact List.noConfusion hc2
        · injection hc2 with he _
          rw [← he] at hd
          exact absurd hd (by decide)
  · simp [tag, hpre, pbind]

end Stable

namespace Stable

/-- Base-10 digit loop fails immediately on a non-digit head. -/
theorem digitsLoop_err_head10 (c : Char) (l : Str)
    (hd : ('0' ≤ c && c ≤ '9') = false) :
    digitsLoop 10 (c :: l) true = .err := by
  simp only [digitsLoop, hd, Bool.false_eq_true, if_false]
  by_cases h2 : ('a' ≤ c && c ≤ 'f') = true
  · have h2' := h2
    rw [Bool.and_eq_true, decide_eq_true_eq, decide_eq_true_eq] at h2'
    have ha := char_le_toNat h2'.1
    have ea : ('a' : Char).toNat = 97 := rfl
    simp only [h2, if_true]
    rw [if_pos (by omega)]
  · by_cases h3 : ('A' ≤ c && c ≤ 'F') = true
    · have h3' := h3
      rw [Bool.and_eq_true, decide_eq_true_eq, decide_eq_true_eq] at h3'
      have ha := char_le_toNat h3'.1
      have ea : ('A' : Char).toNat = 65 := rfl
      simp only [h2, h3, Bool.false_eq_true, if_false, if_true]
      rw [if_pos (by omega)]
    · simp only [h2, h3, Bool.false_eq_true, if_false]
      by_cases h4 : c = '_'
      · simp [h4]
      · simp [h4]

/-- All characters of a safe identifier are identifier-continue. -/
theorem identAll_cont (c : Char) (kt : Str)
    (hstart : (isXidStart c || c = '_') = true)
    (hkt : kt.all isXidContinue = true) :
    ∀ x ∈ c :: kt, isXidContinue x = true := by
  intro x hx
  rcases List.mem_cons.mp hx with rfl | hx'
  · rw [Bool.or_eq_true] at hstart
    unfold isXidContinue
    rcases hstart with h | h <;> simp [h]
  · exact List.all_eq_true.mp hkt x hx'

/-- No literal form starts at a safe identifier. -/
theorem literalNocapture_err_ident (c : Char) (kt rest : Str)
    (hstart : (isXidStart c || c = '_') = true)
    (hkt : kt.all isXidContinue = true)
    (hrest : restOK rest)
    (htr : ¬(c :: kt = str "true")) (hfa : ¬(c :: kt = str "false")) :
    literalNocapture (c :: (kt ++ rest)) = .err := by
  obtain ⟨f_slash, f_ws, f_par, f_brk, f_brc, f_quo, f_apos, f_dig, f_zero,
    f_ops⟩ := identHead_facts c hstart
  have hskip : skipWs (c :: (kt ++ rest)) = c :: (kt ++ rest) :=
    skipWs_cons_of _ f_slash f_ws
  have hrest2 := restOK_elim hrest
  have h_string : string (c :: (kt ++ rest)) = .err := by
    have hq : quotedString (c :: (kt ++ rest)) = .err := by
      unfold quotedString punct
      rw [hskip]
      simp [tag, startsWith, List.isPrefixOf, Ne.symm f_quo, pbind]
    by_cases hc : c = 'r'
    · subst hc
      have hp : punct "r" ('r' :: (kt ++ rest)) = .ok (kt ++ rest) () := by
        unfold punct
        rw [hskip]
        simp [tag, startsWith, List.isPrefixOf]
      simp [string, hq, palt, pbind, hp, rawString_err_ident hkt hrest]
    · have hp : punct "r" (c :: (kt ++ rest)) = .err := by
        unfold punct
        rw [hskip]
        simp [tag, startsWith, List.isPrefixOf, Ne.symm hc]
      simp [string, hq, palt, pbind, hp]
  have h_bytestring : byteString (c :: (kt ++ rest)) = .err := by
    by_cases hc : c = 'b'
    · subst hc
      cases kt with
      | nil =>
        simp only [List.nil_append] at hskip ⊢
        have h1 : punct "b\"" ('b' :: rest) = .err := by
          unfold punct
          rw [hskip]
          rcases hrest2 with rfl | ⟨r', rfl⟩ <;>
            simp [tag, startsWith, List.isPrefixOf]
        have h2 : punct "br" ('b' :: rest) = .err := by
          unfold punct
          rw [hskip]
          rcases hrest2 with rfl | ⟨r', rfl⟩ <;>
            simp [tag, startsWith, List.isPrefixOf]
        simp [byteString, palt, pbind, h1, h2]
      | cons d kt' =>
        simp only [List.cons_append] at hskip ⊢
        rw [List.all_cons, Bool.and_eq_true] at hkt
        obtain ⟨g_quo, _, _, _, _⟩ := identCont_facts d hkt.1
        have h1 : punct "b\"" ('b' :: d :: (kt' ++ rest)) = .err := by
          unfold punct
          rw [hskip]
          simp [tag, startsWith, List.isPrefixOf, Ne.symm g_quo]
        by_cases hdr : d = 'r'
        · subst hdr
          have h2 : punct "br" ('b' :: 'r' :: (kt' ++ rest)) =
              .ok (kt' ++ rest) () := by
            unfold punct
            rw [hskip]
            simp [tag, startsWith, List.isPrefixOf]
          simp [byteString, palt, pbind, h1, h2,
            rawString_err_ident hkt.2 hrest]
        · have h2 : punct "br" ('b' :: d :: (kt' ++ rest)) = .err := by
            unfold punct
            rw [hskip]
            simp [tag, startsWith, List.isPrefixOf, Ne.symm hdr]
          simp [byteString, palt, pbind, h1, h2]
    · have h1 : punct "b\"" (c :: (kt ++ rest)) = .err := by
        unfold punct
        rw [hskip]
        simp [tag, startsWith, List.isPrefixOf, Ne.symm hc]
      have h2 : punct "br" (c :: (kt ++ rest)) = .err := by
        unfold punct
        rw [hskip]
        simp [tag, startsWith, List.isPrefixOf, Ne.symm hc]
      simp [byteString, palt, pbind, h1, h2]
  have h_byte : byte (c :: (kt ++ rest)) = .err := by
    by_cases hc : c = 'b'
    · subst hc
      cases kt with
      | nil =>
        simp only [List.nil_append] at hskip ⊢
        have h1 : punct "b" ('b' :: rest) = .ok rest () := by
          unfold punct
          rw [hskip]
          simp [tag, startsWith, List.isPrefixOf]
        have h2 : tag "\x27" rest = .err := by
          rcases hrest2 with rfl | ⟨r', rfl⟩ <;>
            simp [tag, startsWith, List.isPrefixOf]
        simp [byte, pbind, h1, h2]
      | cons d kt' =>
        simp only [List.cons_append] at hskip ⊢
        rw [List.all_cons, Bool.and_eq_true] at hkt
        obtain ⟨_, _, g_apos, _, _⟩ := identCont_facts d hkt.1
        have h1 : punct "b" ('b' :: d :: (kt' ++ rest)) =
            .ok (d :: (kt' ++ rest)) () := by
          unfold punct
          rw [hskip]
          simp [tag, startsWith, List.isPrefixOf]
        have h2 : tag "\x27" (d :: (kt' ++ rest)) = .err := by
          simp [tag, startsWith, List.isPrefixOf, Ne.symm g_apos]
        simp [byte, pbind, h1, h2]
    · have h1 : punct "b" (c :: (kt ++ rest)) = .err := by
        unfold punct
        rw [hskip]
        simp [tag, startsWith, List.isPrefixOf, Ne.symm hc]
      simp [byte, pbind, h1]
  have h_char : character (c :: (kt ++ rest)) = .err := by
    have h1 : punct "\x27" (c :: (kt ++ rest)) = .err := by
      unfold punct
      rw [hskip]
      simp [tag, startsWith, List.isPrefixOf, Ne.symm f_apos]
    simp [character, pbind, h1]
  have h_float : float (c :: (kt ++ rest)) = .err := by
    simp [float, floatDigits, f_dig, pbind]
  have h_int : int (c :: (kt ++ rest)) = .err := by
    have hdl := digitsLoop_err_head10 c (kt ++ rest) f_dig
    simp [int, digits, startsWith, List.isPrefixOf, Ne.symm f_zero, hdl, pbind]
  have h_bool : boolean (c :: (kt ++ rest)) = .err := by
    have hall := identAll_cont c kt hstart hkt
    simp [boolean, palt,
      keywordP_err "true" c kt rest hskip (by decide) htr hall hrest,
      keywordP_err "false" c kt rest hskip (by decide) hfa hall hrest]
  have h_doc : docComment (c :: (kt ++ rest)) = .err := by
    have h1 : punct "//!" (c :: (kt ++ rest)) = .err := by
      unfold punct
      rw [hskip]
      simp [tag, startsWith, List.isPrefixOf, Ne.symm f_slash]
    have h3 : punct "///" (c :: (kt ++ rest)) = .err := by
      unfold punct
      rw [hskip]
      simp [tag, startsWith, List.isPrefixOf, Ne.symm f_slash]
    have hws : optWs (c :: (kt ++ rest)) = c :: (kt ++ rest) := by
      simp [optWs, whitespaceP, hskip]
    simp [docComment, palt, pbind, h1, h3, hws, startsWith, List.isPrefixOf,
      Ne.symm f_slash]
  simp [literalNocapture, h_string, h_bytestring, h_byte, h_char, h_float,
    h_int, h_bool, h_doc, palt]

end Stable

namespace Stable

/-- Identifier heads are never a backslash. -/
theorem identHead_not_bs (b : Char) (h : (isXidStart b || b = '_') = true) :
    b ≠ '\\' := by
  rcases xidStart_cases b h with ⟨h1, h2⟩ | ⟨h1, h2⟩ | ⟨h1, h2⟩ | rfl
  · rintro rfl; exact absurd (And.intro h1 h2) (by decide)
  · rintro rfl; exact absurd (And.intro h1 h2) (by decide)
  · rintro rfl; exact absurd (And.intro h1 h2) (by decide)
  · decide

/-- Evaluation of `symbol` on a plain identifier followed by a word
break. -/
theorem symbol_ident_eval (c : Char) (kt rest : Str)
    (hqc : c ≠ '\x27') (hslash : c ≠ '/') (hws : wsChar c = false)
    (hstart : (isXidStart c || c = '_') = true)
    (hcont : ∀ x ∈ kt, isXidContinue x = true)
    (hrest : ∀ x, rest.head? = some x → isXidContinue x = false) :
    symbol (c :: (kt ++ rest)) = .ok rest (c :: kt) := by
  have hskip : skipWs (c :: (kt ++ rest)) = c :: (kt ++ rest) :=
    skipWs_cons_of _ hslash hws
  have htw : (kt ++ rest).takeWhile isXidContinue = kt :=
    takeWhile_append_of _ _ _ hcont hrest
  have hq2 : ¬(c = qc) := hqc
  unfold symbol
  rw [hskip]
  simp only [List.head?, Option.some.injEq, hq2, if_false, List.drop_zero,
    htw, hstart, if_true, decide_False, Bool.false_and, Bool.and_eq_true,
    Bool.false_eq_true, false_and]
  rw [show (0 : Nat) + 1 + List.length kt = kt.length + 1 by omega]
  simp only [List.take_succ_cons, List.take_left, List.drop_succ_cons,
    List.drop_left]

end Stable

namespace Stable

/-- No literal form starts at a lifetime. -/
theorem literalNocapture_err_lifetime (b : Char) (bt rest : Str)
    (hstart : (isXidStart b || b = '_') = true)
    (hbt : bt.all isXidContinue = true)
    (hrest : restOK rest) :
    literalNocapture ('\x27' :: b :: (bt ++ rest)) = .err := by
  have hskip : skipWs ('\x27' :: b :: (bt ++ rest)) =
      '\x27' :: b :: (bt ++ rest) :=
    skipWs_cons_of _ (by decide) (by decide)
  have hrest2 := restOK_elim hrest
  have h_string : string ('\x27' :: b :: (bt ++ rest)) = .err := by
    have hq : quotedString ('\x27' :: b :: (bt ++ rest)) = .err := by
      unfold quotedString punct
      rw [hskip]
      simp [tag, startsWith, List.isPrefixOf, pbind]
    have hp : punct "r" ('\x27' :: b :: (bt ++ rest)) = .err := by
      unfold punct
      rw [hskip]
      simp [tag, startsWith, List.isPrefixOf]
    simp [string, hq, palt, pbind, hp]
  have h_bytestring : byteString ('\x27' :: b :: (bt ++ rest)) = .err := by
    have h1 : punct "b\"" ('\x27' :: b :: (bt ++ rest)) = .err := by
      unfold punct
      rw [hskip]
      simp [tag, startsWith, List.isPrefixOf]
    have h2 : punct "br" ('\x27' :: b :: (bt ++ rest)) = .err := by
      unfold punct
      rw [hskip]
      simp [tag, startsWith, List.isPrefixOf]
    simp [byteString, palt, pbind, h1, h2]
  have h_byte : byte ('\x27' :: b :: (bt ++ rest)) = .err := by
    have h1 : punct "b" ('\x27' :: b :: (bt ++ rest)) = .err := by
      unfold punct
      rw [hskip]
      simp [tag, startsWith, List.isPrefixOf]
    simp [byte, pbind, h1]
  have h_char : character ('\x27' :: b :: (bt ++ rest)) = .err := by
    have h1 : punct "\x27" ('\x27' :: b :: (bt ++ rest)) =
        .ok (b :: (bt ++ rest)) () := by
      unfold punct
      rw [hskip]
      simp [tag, startsWith, List.isPrefixOf]
    have h2 : cookedChar (b :: (bt ++ rest)) = .ok (bt ++ rest) () := by
      have hbs := identHead_not_bs b hstart
      rw [cookedChar.eq_def]
      split
      next t heq => injection heq with ha _; exact absurd ha hbs
      next c' t heq => injection heq with _ hb; rw [← hb]
      next heq => exact absurd heq (by simp)
    have h3 : tag "\x27" (bt ++ rest) = .err := by
      cases bt with
      | nil =>
        rcases hrest2 with rfl | ⟨r', rfl⟩ <;>
          simp [tag, startsWith, List.isPrefixOf]
      | cons d bt' =>
        rw [List.all_cons, Bool.and_eq_true] at hbt
        obtain ⟨_, _, g_apos, _, _⟩ := identCont_facts d hbt.1
        simp [tag, startsWith, List.isPrefixOf, Ne.symm g_apos]
    simp [character, pbind, h1, h2, h3]
  have h_float : float ('\x27' :: b :: (bt ++ rest)) = .err := by
    simp [float, floatDigits, pbind]
  have h_int : int ('\x27' :: b :: (bt ++ rest)) = .err := by
    have hdl := digitsLoop_err_head10 '\x27' (b :: (bt ++ rest)) (by decide)
    simp [int, digits, startsWith, List.isPrefixOf, hdl, pbind]
  have h_bool : boolean ('\x27' :: b :: (bt ++ rest)) = .err := by
    have h1 : punct "true" ('\x27' :: b :: (bt ++ rest)) = .err := by
      unfold punct
      rw [hskip]
      simp [tag, startsWith, List.isPrefixOf]
    have h2 : punct "false" ('\x27' :: b :: (bt ++ rest)) = .err := by
      unfold punct
      rw [hskip]
      simp [tag, startsWith, List.isPrefixOf]
    simp [boolean, keywordP, palt, pbind, h1, h2]
  have h_doc : docComment ('\x27' :: b :: (bt ++ rest)) = .err := by
    have h1 : punct "//!" ('\x27' :: b :: (bt ++ rest)) = .err := by
      unfold punct
      rw [hskip]
      simp [tag, startsWith, List.isPrefixOf]
    have h3 : punct "///" ('\x27' :: b :: (bt ++ rest)) = .err := by
      unfold punct
      rw [hskip]
      simp [tag, startsWith, List.isPrefixOf]
    have hws : optWs ('\x27' :: b :: (bt ++ rest)) =
        '\x27' :: b :: (bt ++ rest) := by
      simp [optWs, whitespaceP, hskip]
    simp [docComment, palt, pbind, h1, h3, hws, startsWith, List.isPrefixOf]
  simp [literalNocapture, h_string, h_bytestring, h_byte, h_char, h_float,
    h_int, h_bool, h_doc, palt]

end Stable

namespace Stable

/-- A `restOK` suffix starts with no identifier-continue character. -/
theorem restOK_xid {rest : Str} (h : restOK rest) :
    ∀ x, rest.head? = some x → isXidContinue x = false := by
  intro x hx
  rcases restOK_elim h with rfl | ⟨r', rfl⟩
  · exact absurd hx (by simp)
  · injection hx with h'
    rw [← h']
    decide

/-- The token parser on a rendered safe `Term`: the group alternatives
and every literal form fail, and `symbol` accepts exactly the term's
text. -/
theorem parseToken_term (t rest : Str) (m : Nat)
    (hv : validTerm t = true) (hrest : restOK rest) :
    parseToken (m + 1) (t ++ rest) = .ok rest (.term t) := by
  cases t with
  | nil => exact absurd hv (by simp [validTerm])
  | cons c body =>
    by_cases hq : c = qc
    · subst hq
      have hv' : bodyOk body = true ∧
          (decide (body = str "static") || !KEYWORDS.contains body) = true := by
        simpa [validTerm, Bool.and_eq_true] using hv
      obtain ⟨hbody, hkw⟩ := hv'
      cases body with
      | nil => exact absurd hbody (by simp [bodyOk])
      | cons b bt =>
        simp only [bodyOk, Bool.and_eq_true] at hbody
        obtain ⟨hstart, hbt⟩ := hbody
        show parseToken (m + 1) ('\x27' :: ((b :: bt) ++ rest)) = _
        simp only [List.cons_append]
        have hskip : skipWs ('\x27' :: b :: (bt ++ rest)) =
            '\x27' :: b :: (bt ++ rest) :=
          skipWs_cons_of _ (by decide) (by decide)
        have hpa : punct "(" ('\x27' :: b :: (bt ++ rest)) = .err := by
          unfold punct; rw [hskip]; simp [tag, startsWith, List.isPrefixOf]
        have hbk : punct "[" ('\x27' :: b :: (bt ++ rest)) = .err := by
          unfold punct; rw [hskip]; simp [tag, startsWith, List.isPrefixOf]
        have hbc : punct "\x7b" ('\x27' :: b :: (bt ++ rest)) = .err := by
          unfold punct; rw [hskip]; simp [tag, startsWith, List.isPrefixOf]
        have hlnc := literalNocapture_err_lifetime b bt rest hstart hbt hrest
        have hlit : literal ('\x27' :: b :: (bt ++ rest)) = .err := by
          simp only [literal, hskip, hlnc]
        have hcond : ¬((b :: bt) ∈ KEYWORDS ∧ (b :: bt) ≠ str "static") := by
          rw [Bool.or_eq_true] at hkw
          rcases hkw with hst | hnc
          · rw [decide_eq_true_eq] at hst
            exact fun hh => hh.2 hst
          · rw [Bool.not_eq_true'] at hnc
            intro hh
            simp only [List.contains, List.elem_eq_mem,
              decide_eq_false_iff_not] at hnc
            exact hnc hh.1
        have hsym : symbol ('\x27' :: b :: (bt ++ rest)) =
            .ok rest ('\x27' :: b :: bt) := by
          have := symbol_lifetime_eval b bt rest hstart
            (List.all_eq_true.mp hbt) (restOK_xid hrest)
          rw [show (qc :: b :: (bt ++ rest)) = '\x27' :: b :: (bt ++ rest)
            from rfl] at this
          rw [this, if_neg hcond]
          rfl
        simp [parseToken, hpa, hbk, hbc, hlit, hsym, palt, pmap, qc]
    · have hv' : (bodyOk (c :: body) = true ∧ ¬(c :: body = str "true")) ∧
          ¬(c :: body = str "false") := by
        simpa [validTerm, hq, Bool.and_eq_true, -Bool.not_eq_true] using hv
      obtain ⟨⟨hbody, htr⟩, hfa⟩ := hv'
      simp only [bodyOk, Bool.and_eq_true] at hbody
      obtain ⟨hstart, hbt⟩ := hbody
      show parseToken (m + 1) ((c :: body) ++ rest) = _
      simp only [List.cons_append]
      obtain ⟨f_slash, f_ws, f_par, f_brk, f_brc, f_quo, f_apos, f_dig,
        f_zero, f_ops⟩ := identHead_facts c hstart
      have hskip : skipWs (c :: (body ++ rest)) = c :: (body ++ rest) :=
        skipWs_cons_of _ f_slash f_ws
      have hpa : punct "(" (c :: (body ++ rest)) = .err := by
        unfold punct; rw [hskip]
        simp [tag, startsWith, List.isPrefixOf, Ne.symm f_par]
      have hbk : punct "[" (c :: (body ++ rest)) = .err := by
        unfold punct; rw [hskip]
        simp [tag, startsWith, List.isPrefixOf, Ne.symm f_brk]
      have hbc : punct "\x7b" (c :: (body ++ rest)) = .err := by
        unfold punct; rw [hskip]
        simp [tag, startsWith, List.isPrefixOf, Ne.symm f_brc]
      have hlnc := literalNocapture_err_ident c body rest hstart hbt hrest
        htr hfa
      have hlit : literal (c :: (body ++ rest)) = .err := by
        simp only [literal, hskip, hlnc]
      have hsym : symbol (c :: (body ++ rest)) = .ok rest (c :: body) :=
        symbol_ident_eval c body rest hq f_slash f_ws hstart
          (List.all_eq_true.mp hbt) (restOK_xid hrest)
      simp [parseToken, hpa, hbk, hbc, hlit, hsym, palt, pmap]

end Stable

namespace Stable

/-- Facts guaranteed by membership in the operator character set. -/
theorem opChar_facts (c : Char) (hc : opSet.contains c = true) :
    wsChar c = false ∧ ('0' ≤ c && c ≤ '9') = false ∧ isXidStart c = false ∧
    c ≠ '_' ∧ c ≠ '(' ∧ c ≠ '[' ∧ c ≠ '\x7b' ∧ c ≠ '"' ∧ c ≠ '\x27' ∧
    c ≠ 'b' ∧ c ≠ 'r' ∧ c ≠ 't' ∧ c ≠ 'f' ∧ c ≠ '0' := by
  have hm : c ∈ opSet := by
    simpa [List.contains, List.elem_eq_mem] using hc
  rw [opSet_chars] at hm
  simp only [List.mem_cons, List.not_mem_nil, or_false] at hm
  rcases hm with rfl | rfl | rfl | rfl | rfl | rfl | rfl | rfl | rfl | rfl |
    rfl | rfl | rfl | rfl | rfl | rfl | rfl | rfl | rfl | rfl | rfl <;>
    exact (by decide)

/-- The whitespace skipper stops at an operator character followed by
a word break, including at a slash. -/
theorem skipWs_op (c : Char) (rest : Str) (hws : wsChar c = false)
    (hrest : restOK rest) : skipWs (c :: rest) = c :: rest := by
  have h2 : startsWith "//" (c :: rest) = false := by
    rcases restOK_elim hrest with rfl | ⟨r', rfl⟩ <;>
      simp [startsWith, List.isPrefixOf]
  have h3 : startsWith "/*" (c :: rest) = false := by
    rcases restOK_elim hrest with rfl | ⟨r', rfl⟩ <;>
      simp [startsWith, List.isPrefixOf]
  rw [show skipWs (c :: rest) = skipWsF (rest.length + 1 + 1) (c :: rest)
    from rfl]
  conv_lhs => rw [skipWsF]
  rw [h2, h3]
  simp [hws]

/-- The token parser on a rendered safe operator: the group
alternatives and every literal form fail, `symbol` fails, and `op`
accepts the character with `Alone` spacing. -/
theorem parseToken_op (c : Char) (rest : Str) (m : Nat)
    (hc : opSet.contains c = true) (hrest : restOK rest) :
    parseToken (m + 1) (c :: rest) = .ok rest (.op c .alone) := by
  obtain ⟨f_ws, f_dig, f_xs, f_us, f_par, f_brk, f_brc, f_quo, f_apos, f_b,
    f_r, f_t, f_f, f_zero⟩ := opChar_facts c hc
  have hrest2 := restOK_elim hrest
  have hm : c ∈ opSet := by
    simpa [List.contains, List.elem_eq_mem] using hc
  have hskip : skipWs (c :: rest) = c :: rest := skipWs_op c rest f_ws hrest
  have hpa : punct "(" (c :: rest) = .err := by
    unfold punct; rw [hskip]
    simp [tag, startsWith, List.isPrefixOf, Ne.symm f_par]
  have hbk : punct "[" (c :: rest) = .err := by
    unfold punct; rw [hskip]
    simp [tag, startsWith, List.isPrefixOf, Ne.symm f_brk]
  have hbc : punct "\x7b" (c :: rest) = .err := by
    unfold punct; rw [hskip]
    simp [tag, startsWith, List.isPrefixOf, Ne.symm f_brc]
  have h_string : string (c :: rest) = .err := by
    have hq : quotedString (c :: rest) = .err := by
      unfold quotedString punct
      rw [hskip]
      simp [tag, startsWith, List.isPrefixOf, Ne.symm f_quo, pbind]
    have hp : punct "r" (c :: rest) = .err := by
      unfold punct; rw [hskip]
      simp [tag, startsWith, List.isPrefixOf, Ne.symm f_r]
    simp [string, hq, palt, pbind, hp]
  have h_bytestring : byteString (c :: rest) = .err := by
    have h1 : punct "b\"" (c :: rest) = .err := by
      unfold punct; rw [hskip]
      simp [tag, startsWith, List.isPrefixOf, Ne.symm f_b]
    have h2 : punct "br" (c :: rest) = .err := by
      unfold punct; rw [hskip]
      simp [tag, startsWith, List.isPrefixOf, Ne.symm f_b]
    simp [byteString, palt, pbind, h1, h2]
  have h_byte : byte (c :: rest) = .err := by
    have h1 : punct "b" (c :: rest) = .err := by
      unfold punct; rw [hskip]
      simp [tag, startsWith, List.isPrefixOf, Ne.symm f_b]
    simp [byte, pbind, h1]
  have h_char : character (c :: rest) = .err := by
    have h1 : punct "\x27" (c :: rest) = .err := by
      unfold punct; rw [hskip]
      simp [tag, startsWith, List.isPrefixOf, Ne.symm f_apos]
    simp [character, pbind, h1]
  have h_float : float (c :: rest) = .err := by
    simp [float, floatDigits, f_dig, pbind]
  have h_int : int (c :: rest) = .err := by
    have hdl := digitsLoop_err_head10 c rest f_dig
    simp [int, digits, startsWith, List.isPrefixOf, Ne.symm f_zero, hdl, pbind]
  have h_bool : boolean (c :: rest) = .err := by
    have h1 : punct "true" (c :: rest) = .err := by
      unfold punct; rw [hskip]
      simp [tag, startsWith, List.isPrefixOf, Ne.symm f_t]
    have h2 : punct "false" (c :: rest) = .err := by
      unfold punct; rw [hskip]
      simp [tag, startsWith, List.isPrefixOf, Ne.symm f_f]
    simp [boolean, keywordP, palt, pbind, h1, h2]
  have h_doc : docComment (c :: rest) = .err := by
    have h1 : punct "//!" (c :: rest) = .err := by
      unfold punct; rw [hskip]
      rcases hrest2 with rfl | ⟨r', rfl⟩ <;>
        simp [tag, startsWith, List.isPrefixOf]
    have h3 : punct "///" (c :: rest) = .err := by
      unfold punct; rw [hskip]
      rcases hrest2 with rfl | ⟨r', rfl⟩ <;>
        simp [tag, startsWith, List.isPrefixOf]
    have hws2 : optWs (c :: rest) = c :: rest := by
      simp [optWs, whitespaceP, hskip]
    have h2 : startsWith "/*!" (c :: rest) = false := by
      rcases hrest2 with rfl | ⟨r', rfl⟩ <;>
        simp [startsWith, List.isPrefixOf]
    have h4 : startsWith "/**" (c :: rest) = false := by
      rcases hrest2 with rfl | ⟨r', rfl⟩ <;>
        simp [startsWith, List.isPrefixOf]
    simp [docComment, palt, pbind, h1, h3, hws2, h2, h4]
  have hlnc : literalNocapture (c :: rest) = .err := by
    simp [literalNocapture, h_string, h_bytestring, h_byte, h_char, h_float,
      h_int, h_bool, h_doc, palt]
  have hlit : literal (c :: rest) = .err := by
    simp only [literal, hskip, hlnc]
  have hsym : symbol (c :: rest) = .err := by
    unfold symbol
    rw [hskip]
    have hq2 : ¬(c = qc) := f_apos
    simp [List.head?, hq2, f_xs, f_us]
  have hopv : op (c :: rest) = .ok rest (c, Spacing.alone) := by
    have h1 : opChar (c :: rest) = .ok rest c := by
      simp [opChar, hm]
    have h2 : opChar rest = .err := by
      rcases hrest2 with rfl | ⟨r', rfl⟩
      · rfl
      · simp [opChar, opSet_chars]
    simp only [op, hskip, h1, h2]
  simp [parseToken, hpa, hbk, hbc, hlit, hsym, hopv, palt, pmap]

end Stable

namespace Stable

/-- Exclusions guaranteed by a decimal-digit character. -/
theorem digitHead_facts (c : Char) (h : ('0' ≤ c && c ≤ '9') = true) :
    c ≠ '/' ∧ wsChar c = false ∧ c ≠ '(' ∧ c ≠ '[' ∧ c ≠ '\x7b' ∧ c ≠ '"' ∧
    c ≠ '\x27' ∧ c ≠ 'b' ∧ c ≠ 'r' ∧ c ≠ 't' ∧ c ≠ 'f' ∧ c ≠ 'x' ∧
    c ≠ 'o' := by
  rw [Bool.and_eq_true, decide_eq_true_eq, decide_eq_true_eq] at h
  have h1 := char_le_toNat h.1
  have h2 := char_le_toNat h.2
  have e0 : ('0' : Char).toNat = 48 := rfl
  have e9 : ('9' : Char).toNat = 57 := rfl
  rw [e0] at h1
  rw [e9] at h2
  refine ⟨?_, ?_, ?_, ?_, ?_, ?_, ?_, ?_, ?_, ?_, ?_, ?_, ?_⟩ <;>
    first
      | (rintro rfl; exact absurd (And.intro h1 h2) (by decide))
      | (simp only [wsChar, Bool.or_eq_false_iff, Bool.and_eq_false_iff,
           decide_eq_false_iff_not]
         constructor
         · rintro rfl; exact absurd (And.intro h1 h2) (by decide)
         · right; omega)

/-- The mantissa loop consumes a run of digits and stops at the
following space or end of input. -/
theorem mantissa_digits (lt rest : Str)
    (hd : ∀ x ∈ lt, ('0' ≤ x && x ≤ '9') = true) (hrest : restOK rest) :
    mantissa (lt ++ rest) false false = some (rest, false, false) := by
  induction lt with
  | nil =>
    rcases restOK_elim hrest with rfl | ⟨r', rfl⟩
    · rfl
    · rfl
  | cons d lt' ih =>
    have hdd := hd d (List.mem_cons_self d lt')
    simp only [List.cons_append, mantissa, hdd, Bool.true_or, Bool.or_eq_true,
      if_true, true_or]
    exact ih (fun x hx => hd x (List.mem_cons_of_mem _ hx))

/-- The digit loop consumes a run of digits and stops at the
following space or end of input. -/
theorem digitsLoop_digits (lt rest : Str)
    (hd : ∀ x ∈ lt, ('0' ≤ x && x ≤ '9') = true) (hrest : restOK rest) :
    digitsLoop 10 (lt ++ rest) false = .ok rest () := by
  induction lt with
  | nil =>
    rcases restOK_elim hrest with rfl | ⟨r', rfl⟩
    · rfl
    · rfl
  | cons d lt' ih =>
    have hdd := hd d (List.mem_cons_self d lt')
    have hb := hdd
    rw [Bool.and_eq_true, decide_eq_true_eq, decide_eq_true_eq] at hb
    have h1 := char_le_toNat hb.1
    have h2 := char_le_toNat hb.2
    have e0 : ('0' : Char).toNat = 48 := rfl
    have e9 : ('9' : Char).toNat = 57 := rfl
    rw [e0] at h1
    rw [e9] at h2
    simp only [List.cons_append, digitsLoop, hdd, if_true]
    rw [if_neg (by omega)]
    exact ih (fun x hx => hd x (List.mem_cons_of_mem _ hx))

end Stable

namespace Stable

/-- The token parser on a rendered digit literal: the group
alternatives fail and the literal recognizer accepts exactly the digit
run (through its `int` alternative). -/
theorem parseToken_lit (l rest : Str) (m : Nat)
    (hv : validLit l = true) (hrest : restOK rest) :
    parseToken (m + 1) (l ++ rest) = .ok rest (.literal l) := by
  have hv' : ¬(l = []) ∧ ∀ x ∈ l, ('0' ≤ x && x ≤ '9') = true := by
    rw [validLit, Bool.and_eq_true, List.all_eq_true] at hv
    exact ⟨by simpa using hv.1, hv.2⟩
  obtain ⟨hne, hall⟩ := hv'
  cases l with
  | nil => exact absurd rfl hne
  | cons c lt =>
    have hc := hall c (List.mem_cons_self c lt)
    obtain ⟨f_slash, f_ws, f_par, f_brk, f_brc, f_quo, f_apos, f_b, f_r, f_t,
      f_f, f_x, f_o⟩ := digitHead_facts c hc
    have hlt : ∀ x ∈ lt, ('0' ≤ x && x ≤ '9') = true :=
      fun x hx => hall x (List.mem_cons_of_mem _ hx)
    have hrest2 := restOK_elim hrest
    show parseToken (m + 1) ((c :: lt) ++ rest) = _
    simp only [List.cons_append]
    have hskip : skipWs (c :: (lt ++ rest)) = c :: (lt ++ rest) :=
      skipWs_cons_of _ f_slash f_ws
    have hpa : punct "(" (c :: (lt ++ rest)) = .err := by
      unfold punct; rw [hskip]
      simp [tag, startsWith, List.isPrefixOf, Ne.symm f_par]
    have hbk : punct "[" (c :: (lt ++ rest)) = .err := by
      unfold punct; rw [hskip]
      simp [tag, startsWith, List.isPrefixOf, Ne.symm f_brk]
    have hbc : punct "\x7b" (c :: (lt ++ rest)) = .err := by
      unfold punct; rw [hskip]
      simp [tag, startsWith, List.isPrefixOf, Ne.symm f_brc]
    have h_string : string (c :: (lt ++ rest)) = .err := by
      have hq : quotedString (c :: (lt ++ rest)) = .err := by
        unfold quotedString punct
        rw [hskip]
        simp [tag, startsWith, List.isPrefixOf, Ne.symm f_quo, pbind]
      have hp : punct "r" (c :: (lt ++ rest)) = .err := by
        unfold punct; rw [hskip]
        simp [tag, startsWith, List.isPrefixOf, Ne.symm f_r]
      simp [string, hq, palt, pbind, hp]
    have h_bytestring : byteString (c :: (lt ++ rest)) = .err := by
      have h1 : punct "b\"" (c :: (lt ++ rest)) = .err := by
        unfold punct; rw [hskip]
        simp [tag, startsWith, List.isPrefixOf, Ne.symm f_b]
      have h2 : punct "br" (c :: (lt ++ rest)) = .err := by
        unfold punct; rw [hskip]
        simp [tag, startsWith, List.isPrefixOf, Ne.symm f_b]
      simp [byteString, palt, pbind, h1, h2]
    have h_byte : byte (c :: (lt ++ rest)) = .err := by
      have h1 : punct "b" (c :: (lt ++ rest)) = .err := by
        unfold punct; rw [hskip]
        simp [tag, startsWith, List.isPrefixOf, Ne.symm f_b]
      simp [byte, pbind, h1]
    have h_char : character (c :: (lt ++ rest)) = .err := by
      have h1 : punct "\x27" (c :: (lt ++ rest)) = .err := by
        unfold punct; rw [hskip]
        simp [tag, startsWith, List.isPrefixOf, Ne.symm f_apos]
      simp [character, pbind, h1]
    have hf32 : startsWith "f32" rest = false := by
      rcases hrest2 with rfl | ⟨r', rfl⟩ <;> simp [startsWith, List.isPrefixOf]
    have hf64 : startsWith "f64" rest = false := by
      rcases hrest2 with rfl | ⟨r', rfl⟩ <;> simp [startsWith, List.isPrefixOf]
    have h_float : float (c :: (lt ++ rest)) = .err := by
      have hfd : floatDigits (c :: (lt ++ rest)) = .err := by
        simp only [floatDigits, hc, if_true,
          mantissa_digits lt rest hlt hrest, hf32, hf64]
        simp
      simp [float, hfd, pbind]
    have hsecond : lt ++ rest = [] ∨
        ∃ d Y, lt ++ rest = d :: Y ∧ d ≠ 'x' ∧ d ≠ 'o' ∧ d ≠ 'b' := by
      cases lt with
      | nil =>
        rcases hrest2 with rfl | ⟨r', rfl⟩
        · exact Or.inl rfl
        · exact Or.inr ⟨' ', r', rfl, by decide, by decide, by decide⟩
      | cons d lt' =>
        obtain ⟨_, _, _, _, _, _, _, g_b, _, _, _, g_x, g_o⟩ :=
          digitHead_facts d (hlt d (List.mem_cons_self d lt'))
        exact Or.inr ⟨d, lt' ++ rest, rfl, g_x, g_o, g_b⟩
    have h0x : startsWith "0x" (c :: (lt ++ rest)) = false := by
      rcases hsecond with hh | ⟨d, Y, hh, g1, g2, g3⟩
      · rw [hh]; simp [startsWith, List.isPrefixOf]
      · rw [hh]; simp [startsWith, List.isPrefixOf, Ne.symm g1]
    have h0o : startsWith "0o" (c :: (lt ++ rest)) = false := by
      rcases hsecond with hh | ⟨d, Y, hh, g1, g2, g3⟩
      · rw [hh]; simp [startsWith, List.isPrefixOf]
      · rw [hh]; simp [startsWith, List.isPrefixOf, Ne.symm g2]
    have h0b : startsWith "0b" (c :: (lt ++ rest)) = false := by
      rcases hsecond with hh | ⟨d, Y, hh, g1, g2, g3⟩
      · rw [hh]; simp [startsWith, List.isPrefixOf]
      · rw [hh]; simp [startsWith, List.isPrefixOf, Ne.symm g3]
    have hcb := hc
    rw [Bool.and_eq_true, decide_eq_true_eq, decide_eq_true_eq] at hcb
    have hn1 := char_le_toNat hcb.1
    have hn2 := char_le_toNat hcb.2
    have e0 : ('0' : Char).toNat = 48 := rfl
    have e9 : ('9' : Char).toNat = 57 := rfl
    rw [e0] at hn1
    rw [e9] at hn2
    have hdig : digits (c :: (lt ++ rest)) = .ok rest () := by
      simp only [digits, h0x, h0o, h0b, Bool.false_eq_true, if_false]
      simp only [digitsLoop, hc, if_true]
      rw [if_neg (by omega)]
      exact digitsLoop_digits lt rest hlt hrest
    have hfind : intSuffixes.find? (fun suf => startsWith suf rest) = none := by
      rcases hrest2 with rfl | ⟨r', rfl⟩ <;>
        simp [intSuffixes, List.find?, startsWith, List.isPrefixOf]
    have hwb : wordBreak rest = .ok rest () := by
      rcases hrest2 with rfl | ⟨r', rfl⟩
      · rfl
      · rfl
    have h_int : int (c :: (lt ++ rest)) = .ok rest () := by
      simp [int, hdig, pbind, hfind, hwb]
    have hlnc : literalNocapture (c :: (lt ++ rest)) = .ok rest () := by
      simp [literalNocapture, h_string, h_bytestring, h_byte, h_char, h_float,
        h_int, palt]
    have hlit : literal (c :: (lt ++ rest)) = .ok rest (c :: lt) := by
      simp only [literal, hskip, hlnc]
      have hlen : (c :: (lt ++ rest)).length - rest.length =
          (c :: lt).length := by
        simp only [List.length_cons, List.length_append]
        omega
      rw [hlen]
      rw [show c :: (lt ++ rest) = (c :: lt) ++ rest from rfl, List.take_left]
    simp [parseToken, hpa, hbk, hbc, hlit, palt, pmap]

end Stable

namespace Stable

/-- A valid node never sets the joint flag (its operators are `Alone`). -/
theorem setsJoint_valid (t : TokenNode) (hv : validNode t = true) :
    setsJoint t = false := by
  cases t with
  | op c sp =>
    cases sp with
    | alone => rfl
    | joint =>
      simp only [validNode, Bool.and_eq_true] at hv
      exact absurd hv.2 (by decide)
  | group d ts => rfl
  | term s => rfl
  | literal l => rfl

/-- Every node's fuel is at least 4. -/
theorem tnFuel_ge (t : TokenNode) : 4 ≤ tnFuel t := by
  cases t with
  | group d ts => exact Nat.le_add_left 4 (tsFuel ts)
  | term s => exact Nat.le_refl 4
  | op c sp => exact Nat.le_refl 4
  | literal l => exact Nat.le_refl 4

/-- Every stream's fuel is at least 4. -/
theorem tsFuel_ge (ts : TokenStream) : 4 ≤ tsFuel ts := by
  cases ts with
  | nil => exact Nat.le_refl 4
  | cons t ts => exact Nat.le_add_left 4 (tnFuel t + tsFuel ts)

/-- Every node's size is at least 1. -/
theorem nodeSize_ge (t : TokenNode) : 1 ≤ nodeSize t := by
  cases t with
  | group d ts => exact Nat.le_add_left 1 (streamSize ts)
  | term s => exact Nat.le_refl 1
  | op c sp => exact Nat.le_refl 1
  | literal l => exact Nat.le_refl 1

/-- Every stream's size is at least 1. -/
theorem streamSize_ge (ts : TokenStream) : 1 ≤ streamSize ts := by
  cases ts with
  | nil => exact Nat.le_refl 1
  | cons t ts => exact Nat.le_add_left 1 (nodeSize t + streamSize ts)

/-- A one-character punct succeeds when its character heads the input. -/
theorem punct_open (pat : String) (o : Char) (X : Str)
    (hpat : pat.toList = [o]) (ho : o ≠ '/') (hw : wsChar o = false) :
    punct pat (o :: X) = .ok X () := by
  have hd : pat.data = [o] := hpat
  unfold punct
  rw [skipWs_cons_of X ho hw]
  simp [tag, startsWith, hd, String.toList, List.isPrefixOf]

/-- A one-character punct fails on a different non-whitespace head. -/
theorem punct_err_head (pat : String) (o c : Char) (X : Str)
    (hpat : pat.toList = [o]) (hco : o ≠ c) (hc : c ≠ '/')
    (hw : wsChar c = false) : punct pat (c :: X) = .err := by
  have hd : pat.data = [o] := hpat
  unfold punct
  rw [skipWs_cons_of X hc hw]
  simp [tag, startsWith, hd, String.toList, List.isPrefixOf, hco]

/-- A one-character punct consumes a rendered space before its
character. -/
theorem punct_close (pat : String) (cl : Char) (rest : Str)
    (hpat : pat.toList = [cl]) (hc : cl ≠ '/') (hw : wsChar cl = false) :
    punct pat (' ' :: cl :: rest) = .ok rest () := by
  have hd : pat.data = [cl] := hpat
  unfold punct
  rw [skipWs_space (cl :: rest), skipWs_cons_of rest hc hw]
  simp [tag, startsWith, hd, String.toList, List.isPrefixOf]

end Stable

namespace Stable

/-- Assembling one stream step from a token parse and a tail parse. -/
theorem parseStream_cons_of {n : Nat} {s r e : Str} {t : TokenNode}
    {ts : TokenStream} (h1 : parseToken n s = .ok r t)
    (h2 : parseStream n r = .ok e ts) :
    parseStream (n + 1) s = .ok e (.cons t ts) := by
  simp only [parseStream, h1, h2]

/-- Main round-trip induction: re-lexing the rendering of a valid node
followed by an admissible rest yields the node back, and re-lexing the
rendering of a valid stream followed by a stopper yields the stream
back, given enough fuel. -/
theorem roundTrip_main : ∀ k : Nat,
    (∀ t : TokenNode, nodeSize t ≤ k → validNode t = true →
      ∀ rest : Str, restOK rest → ∀ n : Nat, tnFuel t ≤ n →
        parseToken n (renderNode t ++ rest) = .ok rest t) ∧
    (∀ ts : TokenStream, streamSize ts ≤ k → validStream ts = true →
      ∀ ext : Str, stopperP ext → restOK ext → ∀ n : Nat, tsFuel ts ≤ n →
        parseStream n (renderGo true ts ++ ext) = .ok ext ts) := by
  intro k
  induction k using Nat.strong_induction_on with
  | _ k IH =>
    constructor
    · intro t hsize hv rest hrest n hfuel
      obtain ⟨m, rfl⟩ : ∃ m, n = m + 1 :=
        ⟨n - 1, by have := tnFuel_ge t; omega⟩
      cases t with
      | term s => exact parseToken_term s rest m hv hrest
      | op c sp =>
        simp only [validNode, Bool.and_eq_true] at hv
        obtain ⟨hc, hsp⟩ := hv
        have hsp2 : sp = Spacing.alone := by
          cases sp with
          | alone => rfl
          | joint => exact absurd hsp (by decide)
        subst hsp2
        exact parseToken_op c rest m hc hrest
      | literal l =>
        have hvl : validLit l = true := hv
        have hne : l.head? ≠ some '/' := by
          cases l with
          | nil => simp
          | cons c lt =>
            have hc : ('0' ≤ c && c ≤ '9') = true := by
              rw [validLit, Bool.and_eq_true, List.all_eq_true] at hvl
              exact hvl.2 c (List.mem_cons_self c lt)
            obtain ⟨f_slash, _⟩ := digitHead_facts c hc
            simp [f_slash]
        have hrn : renderNode (TokenNode.literal l) = l := by
          simp [renderNode, hne]
        rw [hrn]
        exact parseToken_lit l rest m hvl hrest
      | group d ts =>
        simp only [validNode, Bool.and_eq_true, Bool.not_eq_true',
          decide_eq_false_iff_not] at hv
        obtain ⟨hd, hts⟩ := hv
        simp only [nodeSize] at hsize
        simp only [tnFuel] at hfuel
        have hklt : k - 1 < k := by
          have := streamSize_ge ts
          omega
        have hszi : streamSize ts ≤ k - 1 := by
          have := streamSize_ge ts
          omega
        have IHs := (IH (k - 1) hklt).2
        have hm7 : 7 ≤ m := by have := tsFuel_ge ts; omega
        cases d with
        | none => exact absurd rfl hd
        | parenthesis =>
          cases ts with
          | nil =>
            show parseToken (m + 1) ('(' :: ' ' :: ')' :: rest) = _
            have hpa : punct "(" ('(' :: ' ' :: ')' :: rest) =
                .ok (' ' :: ')' :: rest) () :=
              punct_open "(" '(' _ rfl (by decide) (by decide)
            have hstop2 : stopperP (' ' :: ')' :: rest) :=
              stopper_space (stopper_closer (Or.inl rfl) rest)
            have hps : parseStream m (' ' :: ')' :: rest) =
                .ok (' ' :: ')' :: rest) .nil :=
              parseStream_of_stopper hstop2 m (by omega)
            have hclose : punct ")" (' ' :: ')' :: rest) = .ok rest () :=
              punct_close ")" ')' rest rfl (by decide) (by decide)
            simp [parseToken, hpa, hps, hclose, palt]
          | cons t2 ts2 =>
            have hsh : renderNode (TokenNode.group Delimiter.parenthesis
                  (TokenStream.cons t2 ts2)) ++ rest
                = '(' :: ' ' :: (renderGo true (TokenStream.cons t2 ts2) ++
                    (' ' :: ')' :: rest)) := by
              simp [renderNode, delimChars]
            rw [hsh]
            have hstop2 : stopperP (' ' :: ')' :: rest) :=
              stopper_space (stopper_closer (Or.inl rfl) rest)
            have hps0 : parseStream m (renderGo true (TokenStream.cons t2 ts2)
                  ++ (' ' :: ')' :: rest))
                = .ok (' ' :: ')' :: rest) (TokenStream.cons t2 ts2) :=
              IHs (TokenStream.cons t2 ts2) hszi hts (' ' :: ')' :: rest)
                hstop2 (by right; rfl) m (by omega)
            obtain ⟨m2, rfl⟩ : ∃ m2, m = m2 + 1 := ⟨m - 1, by omega⟩
            have hne2 := parseStream_ok_cons_token_ne hps0
            have hsp : parseStream (m2 + 1) (' ' ::
                  (renderGo true (TokenStream.cons t2 ts2) ++
                    (' ' :: ')' :: rest)))
                = parseStream (m2 + 1) (renderGo true (TokenStream.cons t2 ts2)
                    ++ (' ' :: ')' :: rest)) :=
              parseStream_cons_space m2 _ hne2
            have hpa : punct "(" ('(' :: ' ' ::
                  (renderGo true (TokenStream.cons t2 ts2) ++
                    (' ' :: ')' :: rest)))
                = .ok (' ' :: (renderGo true (TokenStream.cons t2 ts2) ++
                    (' ' :: ')' :: rest))) () :=
              punct_open "(" '(' _ rfl (by decide) (by decide)
            have hclose : punct ")" (' ' :: ')' :: rest) = .ok rest () :=
              punct_close ")" ')' rest rfl (by decide) (by decide)
            simp [parseToken, hpa, hsp, hps0, hclose, palt]
        | bracket =>
          cases ts with
          | nil =>
            show parseToken (m + 1) ('[' :: ' ' :: ']' :: rest) = _
            have hf1 : punct "(" ('[' :: ' ' :: ']' :: rest) = .err :=
              punct_err_head "(" '(' '[' _ rfl (by decide) (by decide)
                (by decide)
            have hpa : punct "[" ('[' :: ' ' :: ']' :: rest) =
                .ok (' ' :: ']' :: rest) () :=
              punct_open "[" '[' _ rfl (by decide) (by decide)
            have hstop2 : stopperP (' ' :: ']' :: rest) :=
              stopper_space (stopper_closer (Or.inr (Or.inl rfl)) rest)
            have hps : parseStream m (' ' :: ']' :: rest) =
                .ok (' ' :: ']' :: rest) .nil :=
              parseStream_of_stopper hstop2 m (by omega)
            have hclose : punct "]" (' ' :: ']' :: rest) = .ok rest () :=
              punct_close "]" ']' rest rfl (by decide) (by decide)
            simp [parseToken, hf1, hpa, hps, hclose, palt]
          | cons t2 ts2 =>
            have hsh : renderNode (TokenNode.group Delimiter.bracket
                  (TokenStream.cons t2 ts2)) ++ rest
                = '[' :: ' ' :: (renderGo true (TokenStream.cons t2 ts2) ++
                    (' ' :: ']' :: rest)) := by
              simp [renderNode, delimChars]
            rw [hsh]
            have hf1 : punct "(" ('[' :: ' ' ::
                  (renderGo true (TokenStream.cons t2 ts2) ++
                    (' ' :: ']' :: rest))) = .err :=
              punct_err_head "(" '(' '[' _ rfl (by decide) (by decide)
                (by decide)
            have hstop2 : stopperP (' ' :: ']' :: rest) :=
              stopper_space (stopper_closer (Or.inr (Or.inl rfl)) rest)
            have hps0 : parseStream m (renderGo true (TokenStream.cons t2 ts2)
                  ++ (' ' :: ']' :: rest))
                = .ok (' ' :: ']' :: rest) (TokenStream.cons t2 ts2) :=
              IHs (TokenStream.cons t2 ts2) hszi hts (' ' :: ']' :: rest)
                hstop2 (by right; rfl) m (by omega)
            obtain ⟨m2, rfl⟩ : ∃ m2, m = m2 + 1 := ⟨m - 1, by omega⟩
            have hne2 := parseStream_ok_cons_token_ne hps0
            have hsp : parseStream (m2 + 1) (' ' ::
                  (renderGo true (TokenStream.cons t2 ts2) ++
                    (' ' :: ']' :: rest)))
                = parseStream (m2 + 1) (renderGo true (TokenStream.cons t2 ts2)
                    ++ (' ' :: ']' :: rest)) :=
              parseStream_cons_space m2 _ hne2
            have hpa : punct "[" ('[' :: ' ' ::
                  (renderGo true (TokenStream.cons t2 ts2) ++
                    (' ' :: ']' :: rest)))
                = .ok (' ' :: (renderGo true (TokenStream.cons t2 ts2) ++
                    (' ' :: ']' :: rest))) () :=
              punct_open "[" '[' _ rfl (by decide) (by decide)
            have hclose : punct "]" (' ' :: ']' :: rest) = .ok rest () :=
              punct_close "]" ']' rest rfl (by decide) (by decide)
            simp [parseToken, hf1, hpa, hsp, hps0, hclose, palt]
        | brace =>
          cases ts with
          | nil =>
            show parseToken (m + 1) ('\x7b' :: ' ' :: '\x7d' :: rest) = _
            have hf1 : punct "(" ('\x7b' :: ' ' :: '\x7d' :: rest) = .err :=
              punct_err_head "(" '(' '\x7b' _ rfl (by decide) (by decide)
                (by decide)
            have hf2 : punct "[" ('\x7b' :: ' ' :: '\x7d' :: rest) = .err :=
              punct_err_head "[" '[' '\x7b' _ rfl (by decide) (by decide)
                (by decide)
            have hpa : punct "\x7b" ('\x7b' :: ' ' :: '\x7d' :: rest) =
                .ok (' ' :: '\x7d' :: rest) () :=
              punct_open "\x7b" '\x7b' _ rfl (by decide) (by decide)
            have hstop2 : stopperP (' ' :: '\x7d' :: rest) :=
              stopper_space (stopper_closer (Or.inr (Or.inr rfl)) rest)
            have hps : parseStream m (' ' :: '\x7d' :: rest) =
                .ok (' ' :: '\x7d' :: rest) .nil :=
              parseStream_of_stopper hstop2 m (by omega)
            have hclose : punct "\x7d" (' ' :: '\x7d' :: rest) = .ok rest () :=
              punct_close "\x7d" '\x7d' rest rfl (by decide) (by decide)
            simp [parseToken, hf1, hf2, hpa, hps, hclose, palt]
          | cons t2 ts2 =>
            have hsh : renderNode (TokenNode.group Delimiter.brace
                  (TokenStream.cons t2 ts2)) ++ rest
                = '\x7b' :: ' ' :: (renderGo true (TokenStream.cons t2 ts2) ++
                    (' ' :: '\x7d' :: rest)) := by
              simp [renderNode, delimChars]
            rw [hsh]
            have hf1 : punct "(" ('\x7b' :: ' ' ::
                  (renderGo true (TokenStream.cons t2 ts2) ++
                    (' ' :: '\x7d' :: rest))) = .err :=
              punct_err_head "(" '(' '\x7b' _ rfl (by decide) (by decide)
                (by decide)
            have hf2 : punct "[" ('\x7b' :: ' ' ::
                  (renderGo true (TokenStream.cons t2 ts2) ++
                    (' ' :: '\x7d' :: rest))) = .err :=
              punct_err_head "[" '[' '\x7b' _ rfl (by decide) (by decide)
                (by decide)
            have hstop2 : stopperP (' ' :: '\x7d' :: rest) :=
              stopper_space (stopper_closer (Or.inr (Or.inr rfl)) rest)
            have hps0 : parseStream m (renderGo true (TokenStream.cons t2 ts2)
                  ++ (' ' :: '\x7d' :: rest))
                = .ok (' ' :: '\x7d' :: rest) (TokenStream.cons t2 ts2) :=
              IHs (TokenStream.cons t2 ts2) hszi hts (' ' :: '\x7d' :: rest)
                hstop2 (by right; rfl) m (by omega)
            obtain ⟨m2, rfl⟩ : ∃ m2, m = m2 + 1 := ⟨m - 1, by omega⟩
            have hne2 := parseStream_ok_cons_token_ne hps0
            have hsp : parseStream (m2 + 1) (' ' ::
                  (renderGo true (TokenStream.cons t2 ts2) ++
                    (' ' :: '\x7d' :: rest)))
                = parseStream (m2 + 1) (renderGo true (TokenStream.cons t2 ts2)
                    ++ (' ' :: '\x7d' :: rest)) :=
              parseStream_cons_space m2 _ hne2
            have hpa : punct "\x7b" ('\x7b' :: ' ' ::
                  (renderGo true (TokenStream.cons t2 ts2) ++
                    (' ' :: '\x7d' :: rest)))
                = .ok (' ' :: (renderGo true (TokenStream.cons t2 ts2) ++
                    (' ' :: '\x7d' :: rest))) () :=
              punct_open "\x7b" '\x7b' _ rfl (by decide) (by decide)
            have hclose : punct "\x7d" (' ' :: '\x7d' :: rest) = .ok rest () :=
              punct_close "\x7d" '\x7d' rest rfl (by decide) (by decide)
            simp [parseToken, hf1, hf2, hpa, hsp, hps0, hclose, palt]
    · intro ts hsize hv ext hstop hrext n hfuel
      cases ts with
      | nil =>
        have h := parseStream_of_stopper hstop n
          (by have := tsFuel_ge TokenStream.nil; omega)
        simpa [renderGo] using h
      | cons t ts2 =>
        simp only [validStream, Bool.and_eq_true] at hv
        obtain ⟨hvt, hvts⟩ := hv
        have hk1 : k - 1 < k := by
          simp only [streamSize] at hsize
          have := nodeSize_ge t
          have := streamSize_ge ts2
          omega
        have IHn := (IH (k - 1) hk1).1
        have IHs2 := (IH (k - 1) hk1).2
        have hge := tsFuel_ge (TokenStream.cons t ts2)
        obtain ⟨m, rfl⟩ : ∃ m, n = m + 1 := ⟨n - 1, by omega⟩
        have hnt := nodeSize_ge t
        have hgt := tnFuel_ge t
        cases ts2 with
        | nil =>
          simp only [streamSize] at hsize
          simp only [tsFuel] at hfuel
          have hr2 : renderGo true (TokenStream.cons t TokenStream.nil) ++ ext
              = renderNode t ++ ext := by
            simp [renderGo, setsJoint_valid t hvt]
          rw [hr2]
          have htok : parseToken m (renderNode t ++ ext) = .ok ext t :=
            IHn t (by omega) hvt ext hrext m (by omega)
          have hps2 : parseStream m ext = .ok ext TokenStream.nil :=
            parseStream_of_stopper hstop m (by omega)
          exact parseStream_cons_of htok hps2
        | cons t3 ts3 =>
          simp only [streamSize] at hsize
          simp only [tsFuel] at hfuel
          have hgt3 := tnFuel_ge t3
          have hgs3 := tsFuel_ge ts3
          have hr2 : renderGo true (TokenStream.cons t
                (TokenStream.cons t3 ts3)) ++ ext
              = renderNode t ++ (' ' ::
                  (renderGo true (TokenStream.cons t3 ts3) ++ ext)) := by
            simp [renderGo, setsJoint_valid t hvt]
          rw [hr2]
          have htok : parseToken m (renderNode t ++ (' ' ::
                (renderGo true (TokenStream.cons t3 ts3) ++ ext)))
              = .ok (' ' :: (renderGo true (TokenStream.cons t3 ts3) ++ ext))
                  t :=
            IHn t (by omega) hvt _ (by right; rfl) m (by omega)
          have hts : parseStream m (renderGo true (TokenStream.cons t3 ts3)
                ++ ext) = .ok ext (TokenStream.cons t3 ts3) :=
            IHs2 (TokenStream.cons t3 ts3) (by simp only [streamSize]; omega)
              hvts ext hstop hrext m (by simp only [tsFuel]; omega)
          obtain ⟨m2, rfl⟩ : ∃ m2, m = m2 + 1 := ⟨m - 1, by omega⟩
          have hne2 := parseStream_ok_cons_token_ne hts
          have hsp : parseStream (m2 + 1) (' ' ::
                (renderGo true (TokenStream.cons t3 ts3) ++ ext))
              = parseStream (m2 + 1) (renderGo true (TokenStream.cons t3 ts3)
                  ++ ext) :=
            parseStream_cons_space m2 _ hne2
          exact parseStream_cons_of htok (hsp.trans hts)

end Stable

namespace Stable

/-- The fuel needed by a valid node or stream is covered by eight times
the length of its rendering (plus a constant for streams). -/
theorem renderFuel_main : ∀ k : Nat,
    (∀ t : TokenNode, nodeSize t ≤ k → validNode t = true →
        tnFuel t ≤ 8 * (renderNode t).length) ∧
    (∀ ts : TokenStream, streamSize ts ≤ k → validStream ts = true →
        tsFuel ts ≤ 8 * (renderGo true ts).length + 8) := by
  intro k
  induction k using Nat.strong_induction_on with
  | _ k IH =>
    constructor
    · intro t hsize hv
      cases t with
      | term s =>
        cases s with
        | nil => exact absurd hv (by simp [validNode, validTerm])
        | cons c body =>
          simp only [tnFuel, renderNode, List.length_cons]
          omega
      | op c sp =>
        simp only [tnFuel, renderNode, List.length_cons, List.length_nil]
        omega
      | literal l =>
        cases l with
        | nil => exact absurd hv (by simp [validNode, validLit])
        | cons c lt =>
          simp only [tnFuel, renderNode, List.length_append, List.length_cons]
          omega
      | group d ts =>
        simp only [nodeSize] at hsize
        have hklt : k - 1 < k := by have := streamSize_ge ts; omega
        have IHs := (IH (k - 1) hklt).2
        simp only [validNode, Bool.and_eq_true, Bool.not_eq_true',
          decide_eq_false_iff_not] at hv
        obtain ⟨hd, hts⟩ := hv
        have hb := IHs ts (by have := streamSize_ge ts; omega) hts
        cases d
        case none => exact absurd rfl hd
        all_goals
          cases ts with
          | nil =>
            simp only [tnFuel, tsFuel, renderNode, delimChars,
              List.length_cons, List.length_append, List.length_nil]
            omega
          | cons t2 ts2 =>
            simp only [tnFuel, renderNode, delimChars, List.length_cons,
              List.length_append, List.length_nil]
            omega
    · intro ts hsize hv
      cases ts with
      | nil =>
        simp only [tsFuel, renderGo, List.length_nil]
        omega
      | cons t ts2 =>
        simp only [validStream, Bool.and_eq_true] at hv
        obtain ⟨hvt, hvts⟩ := hv
        simp only [streamSize] at hsize
        have hk1 : k - 1 < k := by
          have := nodeSize_ge t
          have := streamSize_ge ts2
          omega
        have IHn := (IH (k - 1) hk1).1
        have IHs2 := (IH (k - 1) hk1).2
        have ha := IHn t (by omega) hvt
        have hrg : renderGo true (TokenStream.cons t ts2)
            = renderNode t ++ renderGo false ts2 := by
          simp [renderGo, setsJoint_valid t hvt]
        rw [hrg]
        cases ts2 with
        | nil =>
          simp only [tsFuel, renderGo, List.length_append, List.length_nil]
          omega
        | cons t3 ts3 =>
          have hb2 := IHs2 (TokenStream.cons t3 ts3)
            (by simp only [streamSize] at hsize ⊢
                have := nodeSize_ge t
                omega) hvts
          have hr3 : renderGo false (TokenStream.cons t3 ts3)
              = ' ' :: renderGo true (TokenStream.cons t3 ts3) := by
            simp [renderGo]
          rw [hr3]
          simp only [tsFuel] at hb2
          simp only [tsFuel, List.length_append, List.length_cons]
          omega

/-- Structural equivalence is reflexive (by size induction over the
mutual tree/stream structure). -/
theorem equivRefl_main : ∀ k : Nat,
    (∀ t : TokenNode, nodeSize t ≤ k → nodeEquiv t t = true) ∧
    (∀ ts : TokenStream, streamSize ts ≤ k → structEquiv ts ts = true) := by
  intro k
  induction k using Nat.strong_induction_on with
  | _ k IH =>
    constructor
    · intro t hsize
      cases t with
      | group d ts =>
        simp only [nodeSize] at hsize
        have hklt : k - 1 < k := by have := streamSize_ge ts; omega
        have h := (IH (k - 1) hklt).2 ts (by have := streamSize_ge ts; omega)
        simp [nodeEquiv, h]
      | term s => simp [nodeEquiv]
      | op c sp => simp [nodeEquiv]
      | literal l => simp [nodeEquiv]
    · intro ts hsize
      cases ts with
      | nil => rfl
      | cons t ts2 =>
        simp only [streamSize] at hsize
        have hklt : k - 1 < k := by
          have := nodeSize_ge t
          have := streamSize_ge ts2
          omega
        have h1 := (IH (k - 1) hklt).1 t (by omega)
        have h2 := (IH (k - 1) hklt).2 ts2 (by omega)
        simp [structEquiv, h1, h2]

/-- Structural equivalence is reflexive. -/
theorem structEquiv_refl (ts : TokenStream) : structEquiv ts ts = true :=
  (equivRefl_main (streamSize ts)).2 ts (Nat.le_refl _)

/-- C1 (amended): for every token stream in the lexically safe class —
groups with real delimiters, safe identifier/lifetime terms, operator
characters with `Alone` spacing, decimal-digit literals — rendering the
stream and re-lexing the text succeeds and produces a structurally
equivalent stream (in fact the identical stream). -/
theorem c1_round_trip (ts : TokenStream) (hv : validStream ts = true) :
    ∃ ts2, fromStr (renderStream ts) = FromStrRes.ok ts2 ∧
      structEquiv ts ts2 = true := by
  have main := (roundTrip_main (streamSize ts)).2 ts (Nat.le_refl _) hv
    [] stopper_nil (Or.inl rfl)
  have hb : tsFuel ts ≤ fromStrFuel (renderStream ts) := by
    simpa [fromStrFuel, renderStream] using
      (renderFuel_main (streamSize ts)).2 ts (Nat.le_refl _) hv
  have hps := main (fromStrFuel (renderStream ts)) hb
  rw [List.append_nil] at hps
  rw [show renderGo true ts = renderStream ts from rfl] at hps
  refine ⟨ts, ?_, structEquiv_refl ts⟩
  unfold fromStr
  rw [hps]
  rfl

/-- Witness for C1 at the concrete stream `( a ) + 1`. -/
theorem c1_round_trip_witness :
    validStream sampleStream = true ∧
    ∃ ts2, fromStr (renderStream sampleStream) = FromStrRes.ok ts2 ∧
      structEquiv sampleStream ts2 = true :=
  ⟨by decide, c1_round_trip sampleStream (by decide)⟩

end Stable
